import Mathlib

/-!
Verification of the RTS urban traffic simulator against its specification.

The development shallowly embeds the Rust sources:
  - `src/RabbitMQ/src/traffic_light.rs` (angle computation, lane grouping,
    per-junction phase cycling, recommendation handling),
  - `src/CY/src/traffic_light.rs` (variant angle computation and grouping),
  - `src/RabbitMQ/src/simulation.rs` (Dijkstra route planner `find_lane_path`,
    vehicle agent `simulate_car`, `initialize_simdata`),
  - `src/RabbitMQ/src/flow_analyzer.rs` and `src/Berry/src/flow_analyzer.rs`
    (congestion detector),
  - `src/Berry/src/traffic_light.rs` (recommendation consumer).

Floating-point numbers (`f64` lane lengths and angles) are modelled as exact
rationals.  The only transcendental operation in the sources, `f64::atan2`
composed with `to_degrees`, is abstracted as an explicit function parameter
`atanDeg : ℚ → ℚ → ℚ`; every theorem below either holds for all values of that
parameter or instantiates it with `atan2DegAxis`, which gives the exact
mathematical atan2-in-degrees values on the axis-aligned inputs that arise
between grid-adjacent intersections (the only inputs the lane table produces).
-/

/-- Lane category, from `lanes.rs` (`enum LaneCategory`). -/
inductive LaneCategory
  | InputBoundary
  | OutputBoundary
  | Internal
  deriving DecidableEq, Repr

/-- A directed lane, from `lanes.rs` (`struct Lane`): identifier, start and end
intersection (0 = outside the grid), length in meters, and category. -/
structure Lane where
  id : ℕ
  start_intersection : ℕ
  end_intersection : ℕ
  lane_length : ℚ
  category : LaneCategory
  deriving DecidableEq, Repr

/-- Traffic light color, from `traffic_light.rs` (`enum LightColor`). -/
inductive LightColor
  | Red
  | Green
  deriving DecidableEq, Repr

/-- `TrafficUpdate` message, from `simulation.rs` / `flow_analyzer.rs`. -/
structure TrafficUpdate where
  lane_id : ℕ
  vehicle_count : ℕ
  timestamp : ℕ
  deriving DecidableEq, Repr

/-- `Recommendation` message, from `traffic_light.rs` / `flow_analyzer.rs`. -/
structure Recommendation where
  lane_id : ℕ
  new_green_time : ℕ
  timestamp : ℕ
  deriving DecidableEq, Repr

/-- `LogEvent` message, from the services. -/
structure LogEvent where
  source : String
  message : String
  timestamp : ℕ
  deriving DecidableEq, Repr

/-- `intersection_to_coords` from `traffic_light.rs`: converts an intersection
ID (1..16) to (row, col) coordinates in a 4×4 grid, as rationals (the source
casts the integer quotient and remainder to `f64`). -/
def intersection_to_coords (inter : ℕ) : ℚ × ℚ :=
  (((inter - 1) / 4 : ℕ), ((inter - 1) % 4 : ℕ))

/-- Exact atan2 in degrees on axis-aligned inputs: agrees with the
mathematical `atan2(dy, dx) * 180 / π` whenever `dx = 0` or `dy = 0` (the only
inputs produced by grid-adjacent intersections).  Used to instantiate the
abstract `atanDeg` parameter on concrete counterexamples. -/
def atan2DegAxis (dy dx : ℚ) : ℚ :=
  if dx = 0 ∧ 0 < dy then 90
  else if dx = 0 ∧ dy < 0 then -90
  else if dy = 0 ∧ dx < 0 then 180
  else 0

/-- `compute_lane_angle` from `src/RabbitMQ/src/traffic_light.rs`:
for a lane with a start intersection, the angle of the vector from start to
end coordinates, normalized to [0, 360); for an input-boundary lane
(start = 0), a default based only on the end junction's row: top row → 90°,
bottom row → 270°, otherwise 90°. -/
def compute_lane_angle (atanDeg : ℚ → ℚ → ℚ) (lane : Lane) : ℚ :=
  if lane.start_intersection ≠ 0 then
    let sc := intersection_to_coords lane.start_intersection
    let ec := intersection_to_coords lane.end_intersection
    let dx := ec.1 - sc.1
    let dy := ec.2 - sc.2
    let angle_deg := atanDeg dy dx
    if angle_deg < 0 then angle_deg + 360 else angle_deg
  else
    let ex := (intersection_to_coords lane.end_intersection).1
    if ex = 0 then 90
    else if ex = 3 then 270
    else 90

namespace CY

/-- `compute_lane_angle` from `src/CY/src/traffic_light.rs`: same as the
RabbitMQ variant for lanes with a start intersection, but the input-boundary
default also distinguishes columns: top row → 90°, bottom row → 270°, left
column → 0°, right column → 180°, otherwise 90°. -/
def compute_lane_angle (atanDeg : ℚ → ℚ → ℚ) (lane : Lane) : ℚ :=
  if lane.start_intersection ≠ 0 then
    let sc := intersection_to_coords lane.start_intersection
    let ec := intersection_to_coords lane.end_intersection
    let dx := ec.1 - sc.1
    let dy := ec.2 - sc.2
    let angle_deg := atanDeg dy dx
    if angle_deg < 0 then angle_deg + 360 else angle_deg
  else
    let exy := intersection_to_coords lane.end_intersection
    if exy.1 = 0 then 90
    else if exy.1 = 3 then 270
    else if exy.2 = 0 then 0
    else if exy.2 = 3 then 180
    else 90

end CY

/-- One step of the grouping loop in `group_lanes_by_direction`
(`traffic_light.rs`): place the lane id into the first group whose running
average angle is within the 20° threshold, pushing the id and updating the
average; otherwise start a new group at the end. -/
def insertLaneIntoGroups (angle : ℚ) (id : ℕ) :
    List (ℚ × List ℕ) → List (ℚ × List ℕ)
  | [] => [(angle, [id])]
  | g :: gs =>
    if |angle - g.1| ≤ 20 then
      ((g.1 * g.2.length + angle) / (g.2.length + 1), g.2 ++ [id]) :: gs
    else
      g :: insertLaneIntoGroups angle id gs

/-- The grouping fold of `group_lanes_by_direction`, before sorting, for an
arbitrary angle assignment. -/
def groupFold (angleOf : Lane → ℚ) (lanes : List Lane) : List (ℚ × List ℕ) :=
  lanes.foldl (fun groups lane => insertLaneIntoGroups (angleOf lane) lane.id groups) []

/-- Insertion into a list of groups sorted by ascending average angle. -/
def insertSortedGroup (g : ℚ × List ℕ) : List (ℚ × List ℕ) → List (ℚ × List ℕ)
  | [] => [g]
  | h :: t => if g.1 ≤ h.1 then g :: h :: t else h :: insertSortedGroup g t

/-- The final sort of `group_lanes_by_direction`
(`groups.sort_by(|a, b| a.0.partial_cmp(&b.0).unwrap())`): sorts the groups by
ascending average angle. -/
def sortGroups : List (ℚ × List ℕ) → List (ℚ × List ℕ)
  | [] => []
  | g :: gs => insertSortedGroup g (sortGroups gs)

/-- Grouping by an arbitrary angle assignment: fold the lanes in order through
first-fit insertion, sort the groups by average angle, return the lane-id
lists. -/
def groupLanesByAngle (angleOf : Lane → ℚ) (lanes : List Lane) : List (List ℕ) :=
  (sortGroups (groupFold angleOf lanes)).map Prod.snd

/-- `group_lanes_by_direction` from `src/RabbitMQ/src/traffic_light.rs`. -/
def group_lanes_by_direction (atanDeg : ℚ → ℚ → ℚ) (lanes : List Lane) : List (List ℕ) :=
  groupLanesByAngle (compute_lane_angle atanDeg) lanes

namespace CY

/-- `group_lanes_by_direction` from `src/CY/src/traffic_light.rs` (identical
grouping over the CY angle computation). -/
def group_lanes_by_direction (atanDeg : ℚ → ℚ → ℚ) (lanes : List Lane) : List (List ℕ) :=
  groupLanesByAngle (CY.compute_lane_angle atanDeg) lanes

end CY

example :
    group_lanes_by_direction atan2DegAxis
      [⟨1, 5, 6, 400, .Internal⟩, ⟨2, 2, 6, 200, .Internal⟩] = [[2], [1]] := by
  norm_num [group_lanes_by_direction, groupLanesByAngle, groupFold, insertLaneIntoGroups,
    compute_lane_angle, intersection_to_coords, atan2DegAxis, sortGroups, insertSortedGroup]

example : compute_lane_angle atan2DegAxis ⟨1013, 0, 5, 400, .InputBoundary⟩ = 90 := by
  norm_num [compute_lane_angle, intersection_to_coords]

example : CY.compute_lane_angle atan2DegAxis ⟨1013, 0, 5, 400, .InputBoundary⟩ = 0 := by
  norm_num [CY.compute_lane_angle, intersection_to_coords]

/-! ### Flow analyzer (`src/RabbitMQ/src/flow_analyzer.rs`, `src/Berry/src/flow_analyzer.rs`) -/

/-- Per-message body of `run_flow_analyzer`: on a well-formed `TrafficUpdate`,
if `vehicle_count >= 4`, emit a `Recommendation` with the same lane id,
`new_green_time = 40` and the current time, together with one log event on
`logs`; otherwise emit nothing.  `now` abstracts `current_time_secs()`. -/
def analyze_update (now : ℕ) (u : TrafficUpdate) : Option (Recommendation × LogEvent) :=
  if 4 ≤ u.vehicle_count then
    some ({ lane_id := u.lane_id, new_green_time := 40, timestamp := now },
          { source := "FlowAnalyzer",
            message := "Published recommendation for lane " ++ toString u.lane_id,
            timestamp := now })
  else
    none

/-- The flow-analyzer consumer loop: each delivery is a pair of its arrival
time and its parse result (`none` models a malformed payload, which the `if
let Ok(update)` in the source skips).  The loop threads no state between
messages; it only accumulates the emitted messages. -/
def run_flow_analyzer (msgs : List (ℕ × Option TrafficUpdate)) :
    List (Recommendation × LogEvent) :=
  msgs.foldl
    (fun out m =>
      match m.2 with
      | some u => out ++ (analyze_update m.1 u).toList
      | none => out)
    []

/-! ### Recommendation consumer of the traffic light controller
(`src/RabbitMQ/src/traffic_light.rs` lines 220-238,
`src/Berry/src/traffic_light.rs` lines 83-100) -/

/-- Body of the recommendation consumer: `if let Some(light) =
lights.get_mut(&rec.lane_id)` — when the lane is controlled (present in the
light map) set it to Green and publish one log event; when it is absent the
branch is skipped entirely: no mutation and no log.  Returns the new light
map and the emitted log events. -/
def handle_recommendation (now : ℕ) (lights : ℕ → Option LightColor)
    (rec : Recommendation) : (ℕ → Option LightColor) × List LogEvent :=
  match lights rec.lane_id with
  | some _ =>
    (Function.update lights rec.lane_id (some LightColor.Green),
     [{ source := "TrafficLight-" ++ toString rec.lane_id,
        message := "Set to Green per recommendation",
        timestamp := now }])
  | none => (lights, [])

/-- The recommendation consumer loop: processes each delivery in order with
`handle_recommendation`, accumulating logs; it never aborts. -/
def run_rec_consumer (lights : ℕ → Option LightColor)
    (msgs : List (ℕ × Recommendation)) : (ℕ → Option LightColor) × List LogEvent :=
  msgs.foldl
    (fun st m =>
      let r := handle_recommendation m.1 st.1 m.2
      (r.1, st.2 ++ r.2))
    (lights, [])

/-! ### Per-junction phase cycling (`src/RabbitMQ/src/traffic_light.rs`
lines 146-212), interleaved with the recommendation consumer.

Each junction task repeatedly: under the light-map mutex, sets the lanes of
the current group to Green and the junction's other lanes to Red; sleeps;
under the mutex sets all the junction's lanes to Red; sleeps; advances the
group index mod the group count.  The recommendation consumer, under the same
mutex, sets a single controlled lane to Green.  Observable moments are the
states between these atomic mutex-protected blocks. -/

/-- The green-phase mutex block: for each lane of the junction, Green if its
id is in the current group, Red otherwise. -/
def applyPhase (lane_list : List Lane) (grp : List ℕ) (lights : ℕ → LightColor) :
    ℕ → LightColor :=
  lane_list.foldl
    (fun L lane =>
      Function.update L lane.id
        (if lane.id ∈ grp then LightColor.Green else LightColor.Red))
    lights

/-- The all-red clearance mutex block: every lane of the junction to Red. -/
def applyAllRed (lane_list : List Lane) (lights : ℕ → LightColor) : ℕ → LightColor :=
  lane_list.foldl (fun L lane => Function.update L lane.id LightColor.Red) lights

/-- The recommendation mutex block: if the lane id is controlled (present in
the global light map, whose key set is `controlled`), set it to Green. -/
def applyRecommendation (controlled : List ℕ) (id : ℕ) (lights : ℕ → LightColor) :
    ℕ → LightColor :=
  if id ∈ controlled then Function.update lights id LightColor.Green else lights

/-- State of one junction controller: the (globally shared) light assignment
and the junction's local `group_index`. -/
structure TLState where
  lights : ℕ → LightColor
  group_index : ℕ

/-- Initial state: `initialize_traffic_lights` maps every controlled lane to
Red, and the junction loop starts at `group_index = 0`. -/
def initTL : TLState := ⟨fun _ => LightColor.Red, 0⟩

/-- Atomic transitions of one junction's phase-cycling loop alone (no
recommendation handling): the green-phase block, the all-red block, and the
index advance `group_index = (group_index + 1) % groups.len()`. -/
inductive PhaseStep (lane_list : List Lane) (groups : List (List ℕ)) :
    TLState → TLState → Prop
  | set_green (s : TLState) :
      PhaseStep lane_list groups s
        ⟨applyPhase lane_list (groups.getD s.group_index []) s.lights, s.group_index⟩
  | set_all_red (s : TLState) :
      PhaseStep lane_list groups s ⟨applyAllRed lane_list s.lights, s.group_index⟩
  | advance (s : TLState) :
      PhaseStep lane_list groups s ⟨s.lights, (s.group_index + 1) % groups.length⟩

/-- Atomic transitions of the controller with the recommendation consumer
interleaved: any phase-cycling step, or the handling of one received
`Recommendation` for a controlled lane. -/
inductive TLStep (lane_list : List Lane) (groups : List (List ℕ))
    (controlled : List ℕ) : TLState → TLState → Prop
  | phase (s t : TLState) (h : PhaseStep lane_list groups s t) :
      TLStep lane_list groups controlled s t
  | recommend (s : TLState) (id : ℕ) :
      TLStep lane_list groups controlled s
        ⟨applyRecommendation controlled id s.lights, s.group_index⟩

/-- The set of Green lanes at the junction is exactly the group `g`. -/
def GreenExactlyGroup (lane_list : List Lane) (s : TLState) (g : List ℕ) : Prop :=
  ∀ l ∈ lane_list, (s.lights l.id = LightColor.Green ↔ l.id ∈ g)

instance (lane_list : List Lane) (s : TLState) (g : List ℕ) :
    Decidable (GreenExactlyGroup lane_list s g) := by
  unfold GreenExactlyGroup; infer_instance

/-- The C1 invariant at one junction: the set of Green lanes of the junction
is empty (all-red clearance) or exactly one of the junction's groups. -/
def OneGroupGreen (lane_list : List Lane) (groups : List (List ℕ)) (s : TLState) : Prop :=
  (∀ l ∈ lane_list, s.lights l.id = LightColor.Red) ∨
  ∃ g ∈ groups, GreenExactlyGroup lane_list s g

instance (lane_list : List Lane) (groups : List (List ℕ)) (s : TLState) :
    Decidable (OneGroupGreen lane_list groups s) := by
  unfold OneGroupGreen; infer_instance

/-! ### Vehicle agent occupancy protocol (`src/RabbitMQ/src/simulation.rs`
`simulate_car` lines 243-276, `initialize_simdata` lines 123-130).

For each lane of its planned route, in order, a vehicle atomically increments
the lane's occupancy on entering and atomically decrements it after driving
the lane; entry and exit boundary lanes are driven without touching
occupancy.  `initialize_simdata` maps every lane id to 0. -/

/-- One occupancy mutation performed by a vehicle. -/
inductive OccEvent
  | enter (lane : ℕ)
  | leave (lane : ℕ)
  deriving DecidableEq, Repr

/-- The lane id an occupancy event touches. -/
def OccEvent.lane : OccEvent → ℕ
  | .enter i => i
  | .leave i => i

/-- The ordered sequence of occupancy mutations `simulate_car` performs for a
planned route: for each route lane in order, enter then leave. -/
def carTrace (route : List Lane) : List OccEvent :=
  route.flatMap fun l => [OccEvent.enter l.id, OccEvent.leave l.id]

/-- Contribution of one event to the occupancy of lane `l`. -/
def occDelta (l : ℕ) : OccEvent → ℤ
  | .enter i => if i = l then 1 else 0
  | .leave i => if i = l then -1 else 0

/-- Net occupancy contribution of a list of events to lane `l`. -/
def occOf (l : ℕ) (es : List OccEvent) : ℤ :=
  (es.map (occDelta l)).sum

/-- `initialize_simdata`: every lane id starts with occupancy 0. -/
def initialize_simdata : ℕ → ℤ := fun _ => 0

/-- The occupancy of lane `l` at an arbitrary observable moment: every
vehicle `i` has executed some prefix (of length `ks[i]`) of its own mutation
sequence, and the mutexed counter holds the initial value plus the sum of all
executed contributions.  Every interleaved schedule of the vehicle tasks
yields such a position vector. -/
def occAt (routes : List (List Lane)) (ks : List ℕ) (l : ℕ) : ℤ :=
  initialize_simdata l +
    ((routes.zip ks).map (fun rk => occOf l ((carTrace rk.1).take rk.2))).sum

example : carTrace [⟨7, 1, 2, 10, .Internal⟩] = [.enter 7, .leave 7] := by rfl
example : occAt [[⟨7, 1, 2, 10, .Internal⟩]] [1] 7 = 1 := by rfl
example : occAt [[⟨7, 1, 2, 10, .Internal⟩]] [2] 7 = 0 := by rfl

/-! ### Route planner (`src/RabbitMQ/src/simulation.rs`, `find_lane_path`,
lines 42-118).

The source runs Dijkstra over intersections with a `BinaryHeap` of
`LaneState { cost, position }` (reversed order, so `pop` returns a minimal
cost), a `dist: HashMap<u32, f64>` initialized to `INFINITY` for 1..=16 and 0
for `start`, and a `prev: HashMap<u32, (u32, Lane)>`.  The model represents
`dist` as a total function into `WithTop ℚ` (an absent key and an `INFINITY`
entry behave identically in the source: `unwrap_or(INFINITY)` on reads, and
the final `!dist.contains_key(&end) || dist[&end] == INFINITY` test), `prev`
as a total function into `Option`, and the heap as a list from which `popMin`
removes a minimal-cost entry.  The loops are given explicit fuel; the fuel
amounts are proved sufficient (`find_lane_path_total`), so the `none` result
of the model (fuel exhaustion) never occurs and every source behaviour is the
`some` case. -/

/-- Dijkstra working state: best-cost table, predecessor table, and the
priority queue of `(cost, position)` entries. -/
structure DState where
  dist : ℕ → WithTop ℚ
  prev : ℕ → Option (ℕ × Lane)
  heap : List (ℚ × ℕ)

/-- `BinaryHeap::pop` under the reversed `Ord` of `LaneState`: removes and
returns an entry of minimal cost (ties resolved arbitrarily in the source;
the model takes the first minimal entry). -/
def popMin : List (ℚ × ℕ) → Option ((ℚ × ℕ) × List (ℚ × ℕ))
  | [] => none
  | e :: es =>
    match popMin es with
    | none => some (e, [])
    | some (m, rest) => if e.1 ≤ m.1 then some (e, es) else some (m, e :: rest)

/-- The adjacency lookup `lane_map.get(&position)`: the lanes leaving `u`, in
table order. -/
def laneNeighbors (lanes : List Lane) (u : ℕ) : List Lane :=
  lanes.filter fun l => l.start_intersection = u

/-- One edge relaxation of the inner `for &lane in neighbor_lanes` loop:
if `cost + lane.length < dist[next]`, update `dist` and `prev` and push the
improved entry. -/
def relaxStep (u : ℕ) (c : ℚ) (s : DState) (lane : Lane) : DState :=
  let next : ℕ := lane.end_intersection
  let next_cost : ℚ := c + lane.lane_length
  if ((next_cost : ℚ) : WithTop ℚ) < s.dist next then
    { dist := Function.update s.dist next ((next_cost : ℚ) : WithTop ℚ),
      prev := Function.update s.prev next (some (u, lane)),
      heap := s.heap ++ [(next_cost, next)] }
  else s

/-- Relax every lane leaving the popped position. -/
def relaxAll (u : ℕ) (c : ℚ) (ns : List Lane) (s : DState) : DState :=
  ns.foldl (relaxStep u c) s

/-- The main `while let Some(LaneState { cost, position }) = heap.pop()` loop:
stop when the heap is empty; break when the end intersection is popped; skip
stale entries (`cost > dist[position]`); otherwise relax the neighbors.
Returns `none` only on fuel exhaustion (proved unreachable for the fuel used
by `find_lane_path`). -/
def dijkstraLoop (endI : ℕ) (lanes : List Lane) : ℕ → DState → Option DState
  | 0, _ => none
  | fuel + 1, s =>
    match popMin s.heap with
    | none => some s
    | some ((c, u), rest) =>
      if u = endI then some { s with heap := rest }
      else if s.dist u < (c : WithTop ℚ) then
        dijkstraLoop endI lanes fuel { s with heap := rest }
      else
        dijkstraLoop endI lanes fuel (relaxAll u c (laneNeighbors lanes u) { s with heap := rest })

/-- The initial state: `dist` is 0 at `start` and infinite elsewhere, `prev`
is empty, the heap holds `(0, start)`. -/
def initDState (start : ℕ) : DState :=
  { dist := fun v => if v = start then ((0 : ℚ) : WithTop ℚ) else ⊤,
    prev := fun _ => none,
    heap := [((0 : ℚ), start)] }

/-- The path reconstruction loop `while current != start`: follow `prev`
backwards, collecting lanes; on a missing predecessor the source breaks with
the partial path (modelled by returning the empty front).  The pushed-then-
reversed list of the source is built here directly in final order.  `none`
only on fuel exhaustion (proved unreachable). -/
def buildPath (start : ℕ) (prevm : ℕ → Option (ℕ × Lane)) : ℕ → ℕ → Option (List Lane)
  | 0, _ => none
  | fuel + 1, current =>
    if current = start then some []
    else
      match prevm current with
      | some pl => (buildPath start prevm fuel pl.1).map fun p => p ++ [pl.2]
      | none => some []

/-- Fuel for the main loop, proved sufficient in `find_lane_path_total`. -/
def dijkstraFuel (lanes : List Lane) : ℕ := 2 * lanes.length + 2

/-- Fuel for path reconstruction, proved sufficient. -/
def buildFuel (lanes : List Lane) : ℕ := lanes.length + 2

/-- `find_lane_path(start, end, lanes)`.  The inner `Option` is the source's
return value (`None` = no path); the outer `Option` is the model's fuel
artifact, proved to always be `some` for positive lane lengths. -/
def find_lane_path (start endI : ℕ) (lanes : List Lane) : Option (Option (List Lane)) :=
  match dijkstraLoop endI lanes (dijkstraFuel lanes) (initDState start) with
  | none => none
  | some s =>
    if s.dist endI = ⊤ then some none
    else (buildPath start s.prev (buildFuel lanes) endI).map some

/-- The caller in `simulate_car` (lines 211-214): a `None` route plan is
replaced by the empty route, so the vehicle proceeds directly from its entry
lane to its exit lane. -/
def car_route (mr : Option (List Lane)) : List Lane :=
  match mr with
  | some route => route
  | none => []

/-- A chained sequence of lanes from the table leading from `a` to `b`:
each lane starts where the previous one ended. -/
inductive Chain (lanes : List Lane) : ℕ → ℕ → List Lane → Prop
  | nil (a : ℕ) : Chain lanes a a []
  | cons (l : Lane) (b : ℕ) (rest : List Lane) (hl : l ∈ lanes)
      (h : Chain lanes l.end_intersection b rest) :
      Chain lanes l.start_intersection b (l :: rest)

example : find_lane_path 3 3 [] = some (some []) := rfl
example :
    find_lane_path 1 2 [⟨10, 1, 2, 5, .Internal⟩] = some (some [⟨10, 1, 2, 5, .Internal⟩]) := rfl
example : find_lane_path 2 1 [⟨10, 1, 2, 5, .Internal⟩] = some none := rfl

/-! ### Grouping lemmas -/

/-- Arithmetic mean of a list of angles. -/
def meanQ (as : List ℚ) : ℚ := as.sum / as.length

/-- Annotated variant of `insertLaneIntoGroups` that records, next to each
inserted lane id, the angle it was inserted with.  Used to reason about the
running average at insertion time. -/
def insertAnn (a : ℚ) (id : ℕ) :
    List (ℚ × List (ℕ × ℚ)) → List (ℚ × List (ℕ × ℚ))
  | [] => [(a, [(id, a)])]
  | g :: gs =>
    if |a - g.1| ≤ 20 then
      ((g.1 * g.2.length + a) / (g.2.length + 1), g.2 ++ [(id, a)]) :: gs
    else
      g :: insertAnn a id gs

/-- Annotated grouping fold. -/
def groupFoldAnn (angleOf : Lane → ℚ) (lanes : List Lane) : List (ℚ × List (ℕ × ℚ)) :=
  lanes.foldl (fun gs lane => insertAnn (angleOf lane) lane.id gs) []

/-- Forgetting the recorded angles. -/
def projAnn (g : ℚ × List (ℕ × ℚ)) : ℚ × List ℕ := (g.1, g.2.map Prod.fst)

theorem insertAnn_proj (a : ℚ) (id : ℕ) (gs : List (ℚ × List (ℕ × ℚ))) :
    insertLaneIntoGroups a id (gs.map projAnn) = (insertAnn a id gs).map projAnn := by
  induction gs with
  | nil => rfl
  | cons g gs ih =>
    by_cases h : |a - g.1| ≤ 20
    · simp [insertAnn, insertLaneIntoGroups, projAnn, h]
    · simp [insertAnn, insertLaneIntoGroups, projAnn, h, ih]

theorem groupFold_eq_ann (angleOf : Lane → ℚ) (lanes : List Lane) :
    groupFold angleOf lanes = (groupFoldAnn angleOf lanes).map projAnn := by
  unfold groupFold groupFoldAnn
  induction lanes using List.reverseRecOn with
  | nil => rfl
  | append_singleton ls l ih => simp [List.foldl_append, ih, insertAnn_proj]

/-- Annotated insertion for the sorted-by-average insert. -/
def insertSortedAnn (g : ℚ × List (ℕ × ℚ)) :
    List (ℚ × List (ℕ × ℚ)) → List (ℚ × List (ℕ × ℚ))
  | [] => [g]
  | h :: t => if g.1 ≤ h.1 then g :: h :: t else h :: insertSortedAnn g t

/-- Annotated sort by average angle. -/
def sortGroupsAnn : List (ℚ × List (ℕ × ℚ)) → List (ℚ × List (ℕ × ℚ))
  | [] => []
  | g :: gs => insertSortedAnn g (sortGroupsAnn gs)

theorem insertSorted_proj (g : ℚ × List (ℕ × ℚ)) (gs : List (ℚ × List (ℕ × ℚ))) :
    insertSortedGroup (projAnn g) (gs.map projAnn) = (insertSortedAnn g gs).map projAnn := by
  induction gs with
  | nil => rfl
  | cons h t ih =>
    have ih2 := ih
    simp only [projAnn] at ih2 ⊢
    by_cases hle : g.1 ≤ h.1
    · simp [insertSortedAnn, insertSortedGroup, projAnn, hle]
    · simp [insertSortedAnn, insertSortedGroup, projAnn, hle, ih2]

theorem sortGroups_proj (gs : List (ℚ × List (ℕ × ℚ))) :
    sortGroups (gs.map projAnn) = (sortGroupsAnn gs).map projAnn := by
  induction gs with
  | nil => rfl
  | cons g t ih => simp [sortGroups, sortGroupsAnn, ih, insertSorted_proj]

theorem insertSortedAnn_perm (g : ℚ × List (ℕ × ℚ)) (gs : List (ℚ × List (ℕ × ℚ))) :
    List.Perm (insertSortedAnn g gs) (g :: gs) := by
  induction gs with
  | nil => rfl
  | cons h t ih =>
    by_cases hle : g.1 ≤ h.1
    · simp [insertSortedAnn, hle]
    · simp only [insertSortedAnn, if_neg hle]
      exact (ih.cons h).trans (List.Perm.swap g h t)

theorem sortGroupsAnn_perm (gs : List (ℚ × List (ℕ × ℚ))) :
    List.Perm (sortGroupsAnn gs) gs := by
  induction gs with
  | nil => rfl
  | cons g t ih => exact (insertSortedAnn_perm g (sortGroupsAnn t)).trans (ih.cons g)

theorem insertSortedAnn_sorted (g : ℚ × List (ℕ × ℚ)) (gs : List (ℚ × List (ℕ × ℚ)))
    (h : gs.Pairwise (fun a b => a.1 ≤ b.1)) :
    (insertSortedAnn g gs).Pairwise (fun a b => a.1 ≤ b.1) := by
  induction gs with
  | nil => simp [insertSortedAnn]
  | cons hd t ih =>
    rcases List.pairwise_cons.mp h with ⟨hhd, ht⟩
    by_cases hle : g.1 ≤ hd.1
    · simp only [insertSortedAnn, if_pos hle]
      refine List.pairwise_cons.mpr ⟨?_, h⟩
      intro b hb
      rcases List.mem_cons.mp hb with hb | hb
      · exact hb ▸ hle
      · exact le_trans hle (hhd b hb)
    · simp only [insertSortedAnn, if_neg hle]
      refine List.pairwise_cons.mpr ⟨?_, ih ht⟩
      intro b hb
      have hb2 : b ∈ g :: t := (insertSortedAnn_perm g t).mem_iff.mp hb
      rcases List.mem_cons.mp hb2 with hb2 | hb2
      · exact hb2 ▸ le_of_lt (lt_of_not_le hle)
      · exact hhd b hb2

theorem sortGroupsAnn_sorted (gs : List (ℚ × List (ℕ × ℚ))) :
    (sortGroupsAnn gs).Pairwise (fun a b => a.1 ≤ b.1) := by
  induction gs with
  | nil => simp [sortGroupsAnn]
  | cons g t ih => exact insertSortedAnn_sorted g (sortGroupsAnn t) ih

/-- Insertion-time consistency of a group: each member after the first was
within 20° of the mean of the angles inserted before it (the running average
maintained by the source is exactly that mean). -/
def GroupConsistent (mems : List (ℕ × ℚ)) : Prop :=
  ∀ k, (hk : k < mems.length) → 0 < k →
    |(mems.get ⟨k, hk⟩).2 - meanQ ((mems.take k).map Prod.snd)| ≤ 20

/-- A well-formed annotated group over a pool of available (id, angle) pairs:
nonempty, its stored average is the mean of its members' angles, it is
insertion-consistent, and all members come from the pool. -/
def AnnGood (pool : List (ℕ × ℚ)) (g : ℚ × List (ℕ × ℚ)) : Prop :=
  g.2 ≠ [] ∧ g.1 = meanQ (g.2.map Prod.snd) ∧ GroupConsistent g.2 ∧ ∀ p ∈ g.2, p ∈ pool

theorem meanQ_append (as : List ℚ) (a : ℚ) (h : as ≠ []) :
    meanQ (as ++ [a]) = (meanQ as * as.length + a) / (as.length + 1) := by
  have hn : (as.length : ℚ) ≠ 0 := by
    have := List.length_pos.mpr h
    positivity
  simp only [meanQ, List.sum_append, List.length_append, List.sum_cons, List.sum_nil,
    List.length_cons, List.length_nil]
  rw [div_mul_cancel₀ _ hn]
  push_cast
  ring_nf

theorem groupConsistent_append (mems : List (ℕ × ℚ)) (id : ℕ) (a : ℚ)
    (h : GroupConsistent mems) (_hne : mems ≠ [])
    (hclose : |a - meanQ (mems.map Prod.snd)| ≤ 20) :
    GroupConsistent (mems ++ [(id, a)]) := by
  intro k hk hk0
  have hlen : (mems ++ [(id, a)]).length = mems.length + 1 := by simp
  by_cases hlt : k < mems.length
  · have htake : (mems ++ [(id, a)]).take k = mems.take k :=
      List.take_append_of_le_length (le_of_lt hlt)
    have hget : (mems ++ [(id, a)]).get ⟨k, hk⟩ = mems.get ⟨k, hlt⟩ := by
      simp [List.getElem_append_left hlt]
    rw [hget, htake]
    exact h k hlt hk0
  · have hk' : k = mems.length := by omega
    subst hk'
    have htake : (mems ++ [(id, a)]).take mems.length = mems := by
      simp
    have hget : (mems ++ [(id, a)]).get ⟨mems.length, hk⟩ = (id, a) := by
      simp
    rw [hget, htake]
    exact hclose

theorem meanQ_singleton (a : ℚ) : meanQ [a] = a := by
  simp [meanQ]

theorem insertAnn_good (a : ℚ) (id : ℕ) (pool : List (ℕ × ℚ))
    (gs : List (ℚ × List (ℕ × ℚ))) (hg : ∀ g ∈ gs, AnnGood pool g)
    (hpool : (id, a) ∈ pool) :
    ∀ g ∈ insertAnn a id gs, AnnGood pool g := by
  induction gs with
  | nil =>
    intro g hgmem
    simp only [insertAnn, List.mem_singleton] at hgmem
    subst hgmem
    refine ⟨by simp, by simp [meanQ_singleton], ?_, by simpa using hpool⟩
    intro k hk hk0
    simp at hk
    omega
  | cons hd t ih =>
    intro g hgmem
    have hhd := hg hd (by simp)
    by_cases hcond : |a - hd.1| ≤ 20
    · simp only [insertAnn, if_pos hcond, List.mem_cons] at hgmem
      rcases hgmem with hgmem | hgmem
      · subst hgmem
        rcases hhd with ⟨hne, havg, hcons, hfrom⟩
        have hlenpos : hd.2 ≠ [] := hne
        have hmapne : hd.2.map Prod.snd ≠ [] := by simpa using hne
        have hclose2 : |a - meanQ (hd.2.map Prod.snd)| ≤ 20 := by rwa [havg] at hcond
        refine ⟨by simp, ?_, ?_, ?_⟩
        · have := meanQ_append (hd.2.map Prod.snd) a hmapne
          simp only [List.map_append, List.map_cons, List.map_nil]
          rw [this, havg]
          simp
        · have := groupConsistent_append hd.2 id a hcons hne hclose2
          simpa using this
        · intro p hp
          rcases List.mem_append.mp hp with hp | hp
          · exact hfrom p hp
          · simp only [List.mem_singleton] at hp
            exact hp ▸ hpool
      · exact hg g (by simp [hgmem])
    · simp only [insertAnn, if_neg hcond, List.mem_cons] at hgmem
      rcases hgmem with hgmem | hgmem
      · exact hgmem ▸ hhd
      · exact ih (fun g hgm => hg g (by simp [hgm])) g hgmem

theorem annGood_mono (pool pool2 : List (ℕ × ℚ)) (g : ℚ × List (ℕ × ℚ))
    (h : AnnGood pool g) (hsub : ∀ p ∈ pool, p ∈ pool2) : AnnGood pool2 g :=
  ⟨h.1, h.2.1, h.2.2.1, fun p hp => hsub p (h.2.2.2 p hp)⟩

theorem groupFoldAnn_good (angleOf : Lane → ℚ) (lanes : List Lane) :
    ∀ g ∈ groupFoldAnn angleOf lanes,
      AnnGood (lanes.map fun l => (l.id, angleOf l)) g := by
  unfold groupFoldAnn
  induction lanes using List.reverseRecOn with
  | nil => simp
  | append_singleton ls l ih =>
    simp only [List.foldl_append, List.foldl_cons, List.foldl_nil]
    intro g hgmem
    refine insertAnn_good (angleOf l) l.id _ _ ?_ ?_ g hgmem
    · intro g2 hg2
      refine annGood_mono _ _ g2 (ih g2 hg2) ?_
      intro p hp
      simp only [List.map_append, List.mem_append]
      exact Or.inl hp
    · simp

theorem insertLane_ne_nil (a : ℚ) (id : ℕ) (gs : List (ℚ × List ℕ)) :
    insertLaneIntoGroups a id gs ≠ [] := by
  cases gs with
  | nil => simp [insertLaneIntoGroups]
  | cons g t =>
    by_cases h : |a - g.1| ≤ 20
    · simp [insertLaneIntoGroups, h]
    · simp [insertLaneIntoGroups, h]

theorem insertLane_groups_ne (a : ℚ) (id : ℕ) (gs : List (ℚ × List ℕ))
    (h : ∀ g ∈ gs, g.2 ≠ []) : ∀ g ∈ insertLaneIntoGroups a id gs, g.2 ≠ [] := by
  induction gs with
  | nil =>
    intro g hg
    simp only [insertLaneIntoGroups, List.mem_singleton] at hg
    subst hg
    simp
  | cons hd t ih =>
    intro g hg
    by_cases hc : |a - hd.1| ≤ 20
    · simp only [insertLaneIntoGroups, if_pos hc, List.mem_cons] at hg
      rcases hg with hg | hg
      · subst hg; simp
      · exact h g (by simp [hg])
    · simp only [insertLaneIntoGroups, if_neg hc, List.mem_cons] at hg
      rcases hg with hg | hg
      · exact hg ▸ h hd (by simp)
      · exact ih (fun g2 hg2 => h g2 (by simp [hg2])) g hg

theorem insertLane_join_perm (a : ℚ) (id : ℕ) (gs : List (ℚ × List ℕ)) :
    List.Perm ((insertLaneIntoGroups a id gs).map Prod.snd).flatten
      (id :: (gs.map Prod.snd).flatten) := by
  induction gs with
  | nil => simp [insertLaneIntoGroups]
  | cons hd t ih =>
    by_cases hc : |a - hd.1| ≤ 20
    · simp only [insertLaneIntoGroups, if_pos hc, List.map_cons, List.flatten_cons,
        List.append_assoc, List.singleton_append]
      exact List.perm_middle
    · simp only [insertLaneIntoGroups, if_neg hc, List.map_cons, List.flatten_cons]
      exact ((ih.append_left hd.2).trans List.perm_middle)

theorem groupFold_join_perm (angleOf : Lane → ℚ) (lanes : List Lane) :
    List.Perm ((groupFold angleOf lanes).map Prod.snd).flatten (lanes.map Lane.id) := by
  unfold groupFold
  induction lanes using List.reverseRecOn with
  | nil => simp
  | append_singleton ls l ih =>
    simp only [List.foldl_append, List.foldl_cons, List.foldl_nil, List.map_append]
    refine (insertLane_join_perm (angleOf l) l.id _).trans ?_
    refine (ih.cons l.id).trans ?_
    simpa using (@List.perm_middle _ l.id (ls.map Lane.id) []).symm

theorem insertSortedGroup_perm (g : ℚ × List ℕ) (gs : List (ℚ × List ℕ)) :
    List.Perm (insertSortedGroup g gs) (g :: gs) := by
  induction gs with
  | nil => rfl
  | cons h t ih =>
    by_cases hle : g.1 ≤ h.1
    · simp [insertSortedGroup, hle]
    · simp only [insertSortedGroup, if_neg hle]
      exact (ih.cons h).trans (List.Perm.swap g h t)

theorem sortGroups_perm (gs : List (ℚ × List ℕ)) : List.Perm (sortGroups gs) gs := by
  induction gs with
  | nil => rfl
  | cons g t ih => exact (insertSortedGroup_perm g (sortGroups t)).trans (ih.cons g)

theorem groupLanesByAngle_join_perm (angleOf : Lane → ℚ) (lanes : List Lane) :
    List.Perm (groupLanesByAngle angleOf lanes).flatten (lanes.map Lane.id) := by
  unfold groupLanesByAngle
  refine List.Perm.trans ?_ (groupFold_join_perm angleOf lanes)
  exact ((sortGroups_perm (groupFold angleOf lanes)).map Prod.snd).flatten

theorem groupFold_groups_ne (angleOf : Lane → ℚ) (lanes : List Lane) :
    ∀ g ∈ groupFold angleOf lanes, g.2 ≠ [] := by
  unfold groupFold
  induction lanes using List.reverseRecOn with
  | nil => simp
  | append_singleton ls l ih =>
    simp only [List.foldl_append, List.foldl_cons, List.foldl_nil]
    exact insertLane_groups_ne _ _ _ ih

theorem groupLanesByAngle_ne_nil (angleOf : Lane → ℚ) (lanes : List Lane)
    (h : lanes ≠ []) : groupLanesByAngle angleOf lanes ≠ [] := by
  intro hcon
  have hperm := groupLanesByAngle_join_perm angleOf lanes
  rw [hcon] at hperm
  have h0 : List.Perm (lanes.map Lane.id) [] := by simpa using hperm.symm
  exact h (List.map_eq_nil_iff.mp h0.eq_nil)

theorem groupLanesByAngle_groups_ne (angleOf : Lane → ℚ) (lanes : List Lane) :
    ∀ g ∈ groupLanesByAngle angleOf lanes, g ≠ [] := by
  unfold groupLanesByAngle
  intro g hg
  rcases List.mem_map.mp hg with ⟨pg, hpg, hproj⟩
  have : pg ∈ groupFold angleOf lanes := (sortGroups_perm _).mem_iff.mp hpg
  exact hproj ▸ groupFold_groups_ne angleOf lanes pg this

/-- Master characterization of the grouping: the output of
`groupLanesByAngle` is the id-projection of an annotated group list that is
sorted by ascending mean angle, insertion-consistent (each member is within
20° of the running average of its group at its insertion time), and drawn
from the input lanes with their computed angles. -/
theorem groupLanesByAngle_spec (angleOf : Lane → ℚ) (lanes : List Lane) :
    ∃ ann : List (List (ℕ × ℚ)),
      groupLanesByAngle angleOf lanes = ann.map (fun mems => mems.map Prod.fst) ∧
      ann.Pairwise (fun g h => meanQ (g.map Prod.snd) ≤ meanQ (h.map Prod.snd)) ∧
      (∀ mems ∈ ann, GroupConsistent mems) ∧
      (∀ mems ∈ ann, ∀ p ∈ mems, ∃ lane ∈ lanes, p.1 = lane.id ∧ p.2 = angleOf lane) := by
  refine ⟨(sortGroupsAnn (groupFoldAnn angleOf lanes)).map Prod.snd, ?_, ?_, ?_, ?_⟩
  · unfold groupLanesByAngle
    rw [groupFold_eq_ann, sortGroups_proj]
    simp [projAnn, Function.comp]
  · have hgood : ∀ g ∈ sortGroupsAnn (groupFoldAnn angleOf lanes),
        AnnGood (lanes.map fun l => (l.id, angleOf l)) g := by
      intro g hg
      exact groupFoldAnn_good angleOf lanes g ((sortGroupsAnn_perm _).mem_iff.mp hg)
    have hsorted := sortGroupsAnn_sorted (groupFoldAnn angleOf lanes)
    rw [List.pairwise_map]
    refine hsorted.imp_of_mem ?_
    intro a b ha hb hab
    have hha := (hgood a ha).2.1
    have hhb := (hgood b hb).2.1
    rw [← hha, ← hhb]
    exact hab
  · intro mems hmems
    rcases List.mem_map.mp hmems with ⟨g, hgmem, hproj⟩
    exact hproj ▸ (groupFoldAnn_good angleOf lanes g
      ((sortGroupsAnn_perm _).mem_iff.mp hgmem)).2.2.1
  · intro mems hmems p hp
    rcases List.mem_map.mp hmems with ⟨g, hgmem, hproj⟩
    have hfrom := (groupFoldAnn_good angleOf lanes g
      ((sortGroupsAnn_perm _).mem_iff.mp hgmem)).2.2.2
    have hpool : p ∈ lanes.map fun l => (l.id, angleOf l) := hfrom p (hproj ▸ hp)
    rcases List.mem_map.mp hpool with ⟨lane, hlane, hmk⟩
    exact ⟨lane, hlane, by rw [← hmk], by rw [← hmk]⟩

/-- C3: `group_lanes_by_direction` (both the RabbitMQ and the CY variant)
processes lanes in order by first-fit insertion into angle groups — its
output is the id-projection of an annotated grouping in which every member
inserted after the first lies within 20° of its group's running average (the
mean of the previously inserted angles, which is exactly the incremental
average the source maintains) at insertion time — and the groups are
returned sorted by ascending average angle. -/
theorem c3_grouping_first_fit (atanDeg : ℚ → ℚ → ℚ) (lanes : List Lane) :
    (∃ ann : List (List (ℕ × ℚ)),
      group_lanes_by_direction atanDeg lanes = ann.map (fun mems => mems.map Prod.fst) ∧
      ann.Pairwise (fun g h => meanQ (g.map Prod.snd) ≤ meanQ (h.map Prod.snd)) ∧
      (∀ mems ∈ ann, GroupConsistent mems) ∧
      (∀ mems ∈ ann, ∀ p ∈ mems,
        ∃ lane ∈ lanes, p.1 = lane.id ∧ p.2 = compute_lane_angle atanDeg lane)) ∧
    (∃ ann : List (List (ℕ × ℚ)),
      CY.group_lanes_by_direction atanDeg lanes = ann.map (fun mems => mems.map Prod.fst) ∧
      ann.Pairwise (fun g h => meanQ (g.map Prod.snd) ≤ meanQ (h.map Prod.snd)) ∧
      (∀ mems ∈ ann, GroupConsistent mems) ∧
      (∀ mems ∈ ann, ∀ p ∈ mems,
        ∃ lane ∈ lanes, p.1 = lane.id ∧ p.2 = CY.compute_lane_angle atanDeg lane)) :=
  ⟨groupLanesByAngle_spec (compute_lane_angle atanDeg) lanes,
   groupLanesByAngle_spec (CY.compute_lane_angle atanDeg) lanes⟩

/-- C10: for a nonempty list of incoming lanes, `group_lanes_by_direction`
returns a nonempty list of nonempty groups whose concatenation is a
permutation of the input lane ids (every lane id lands in exactly one group,
with multiplicity), so `groups[group_index]` under the controller's cyclic
index and the modulus `(group_index + 1) % groups.len()` never fault, and
every lane belongs to some group. -/
theorem c10_groups_partition (atanDeg : ℚ → ℚ → ℚ) (lanes : List Lane)
    (h : lanes ≠ []) :
    group_lanes_by_direction atanDeg lanes ≠ [] ∧
    (∀ g ∈ group_lanes_by_direction atanDeg lanes, g ≠ []) ∧
    List.Perm (group_lanes_by_direction atanDeg lanes).flatten (lanes.map Lane.id) ∧
    (∀ i : ℕ,
      i % (group_lanes_by_direction atanDeg lanes).length <
        (group_lanes_by_direction atanDeg lanes).length) := by
  have hne : group_lanes_by_direction atanDeg lanes ≠ [] :=
    groupLanesByAngle_ne_nil (compute_lane_angle atanDeg) lanes h
  refine ⟨hne, groupLanesByAngle_groups_ne _ lanes, groupLanesByAngle_join_perm _ lanes, ?_⟩
  intro i
  exact Nat.mod_lt i (List.length_pos.mpr hne)

/-- Witness for C10 at a concrete junction lane list. -/
theorem c10_groups_partition_witness :
    ([⟨1, 5, 6, 400, .Internal⟩, ⟨2, 2, 6, 200, .Internal⟩] : List Lane) ≠ [] ∧
    (group_lanes_by_direction atan2DegAxis
        [⟨1, 5, 6, 400, .Internal⟩, ⟨2, 2, 6, 200, .Internal⟩] ≠ [] ∧
      (∀ g ∈ group_lanes_by_direction atan2DegAxis
          [⟨1, 5, 6, 400, .Internal⟩, ⟨2, 2, 6, 200, .Internal⟩], g ≠ []) ∧
      List.Perm (group_lanes_by_direction atan2DegAxis
          [⟨1, 5, 6, 400, .Internal⟩, ⟨2, 2, 6, 200, .Internal⟩]).flatten
        (([⟨1, 5, 6, 400, .Internal⟩, ⟨2, 2, 6, 200, .Internal⟩] : List Lane).map Lane.id) ∧
      (∀ i : ℕ,
        i % (group_lanes_by_direction atan2DegAxis
            [⟨1, 5, 6, 400, .Internal⟩, ⟨2, 2, 6, 200, .Internal⟩]).length <
          (group_lanes_by_direction atan2DegAxis
            [⟨1, 5, 6, 400, .Internal⟩, ⟨2, 2, 6, 200, .Internal⟩]).length)) :=
  ⟨by simp,
   c10_groups_partition atan2DegAxis
     [⟨1, 5, 6, 400, .Internal⟩, ⟨2, 2, 6, 200, .Internal⟩] (by simp)⟩

/-! ### Flow analyzer and recommendation consumer theorems -/

theorem run_flow_analyzer_acc (msgs : List (ℕ × Option TrafficUpdate))
    (acc : List (Recommendation × LogEvent)) :
    msgs.foldl
      (fun out m =>
        match m.2 with
        | some u => out ++ (analyze_update m.1 u).toList
        | none => out) acc =
    acc ++ run_flow_analyzer msgs := by
  induction msgs generalizing acc with
  | nil => simp [run_flow_analyzer]
  | cons m rest ih =>
    have hstep : ∀ acc2 : List (Recommendation × LogEvent),
        (match m.2 with
          | some u => acc2 ++ (analyze_update m.1 u).toList
          | none => acc2) =
        acc2 ++ (match m.2 with
          | some u => (analyze_update m.1 u).toList
          | none => []) := by
      intro acc2
      cases m.2 with
      | some u => rfl
      | none => simp
    simp only [run_flow_analyzer, List.foldl_cons]
    rw [ih, ih, hstep, hstep]
    simp

/-- C5: on each well-formed `TrafficUpdate`, the flow analyzer emits a
`Recommendation` with the same lane id, `new_green_time = 40` and the current
timestamp, plus exactly one log event, if and only if `vehicle_count ≥ 4`;
below the threshold it emits nothing; and the consumer loop is stateless per
message: its output over any message sequence is the concatenation of the
per-message outputs. -/
theorem c5_flow_analyzer (now : ℕ) (u : TrafficUpdate) :
    ((analyze_update now u).isSome ↔ 4 ≤ u.vehicle_count) ∧
    (4 ≤ u.vehicle_count →
      analyze_update now u =
        some ({ lane_id := u.lane_id, new_green_time := 40, timestamp := now },
              { source := "FlowAnalyzer",
                message := "Published recommendation for lane " ++ toString u.lane_id,
                timestamp := now })) ∧
    (u.vehicle_count < 4 → analyze_update now u = none) ∧
    (∀ msgs1 msgs2 : List (ℕ × Option TrafficUpdate),
      run_flow_analyzer (msgs1 ++ msgs2) =
        run_flow_analyzer msgs1 ++ run_flow_analyzer msgs2) ∧
    run_flow_analyzer [(now, some u)] = (analyze_update now u).toList := by
  refine ⟨?_, ?_, ?_, ?_, ?_⟩
  · by_cases h : 4 ≤ u.vehicle_count <;> simp [analyze_update, h]
  · intro h
    simp [analyze_update, h]
  · intro h
    simp [analyze_update, Nat.not_le.mpr h]
  · intro msgs1 msgs2
    simp only [run_flow_analyzer, List.foldl_append]
    rw [show (List.foldl _ [] msgs1 : List (Recommendation × LogEvent)) =
      run_flow_analyzer msgs1 from rfl, run_flow_analyzer_acc]
    rfl
  · simp [run_flow_analyzer]

/-- C9 amended: when a `Recommendation` names a lane that is not in the light
map, the handler leaves the map unchanged and emits no log event (the `if
let Some(light)` branch is simply skipped), and the consumer loop continues
with the remaining messages exactly as if the message had not arrived. -/
theorem c9_unknown_lane_ignored (now : ℕ) (lights : ℕ → Option LightColor)
    (rec : Recommendation) (h : lights rec.lane_id = none) :
    handle_recommendation now lights rec = (lights, []) ∧
    (∀ msgs : List (ℕ × Recommendation),
      run_rec_consumer lights ((now, rec) :: msgs) = run_rec_consumer lights msgs) := by
  have hh : handle_recommendation now lights rec = (lights, []) := by
    simp [handle_recommendation, h]
  refine ⟨hh, ?_⟩
  intro msgs
  simp [run_rec_consumer, hh]

/-- C9 counterexample: a recommendation for unknown lane 9999 against a map
controlling only lane 1000 produces no log event at all (the claim requires
an error-level log), though the map is indeed unchanged and processing
continues. -/
theorem c9_counterexample :
    handle_recommendation 0 (fun id => if id = 1000 then some LightColor.Red else none)
      ⟨9999, 40, 0⟩ =
      ((fun id => if id = 1000 then some LightColor.Red else none), []) := rfl

/-- Witness for C9 (amended) at a concrete unknown-lane recommendation. -/
theorem c9_unknown_lane_ignored_witness :
    ((fun id => if id = 1000 then some LightColor.Red else none) :
        ℕ → Option LightColor) 9999 = none ∧
    (handle_recommendation 7 (fun id => if id = 1000 then some LightColor.Red else none)
        ⟨9999, 40, 3⟩ =
      ((fun id => if id = 1000 then some LightColor.Red else none), []) ∧
    (∀ msgs : List (ℕ × Recommendation),
      run_rec_consumer (fun id => if id = 1000 then some LightColor.Red else none)
          ((7, ⟨9999, 40, 3⟩) :: msgs) =
        run_rec_consumer (fun id => if id = 1000 then some LightColor.Red else none) msgs)) :=
  ⟨rfl, c9_unknown_lane_ignored 7 _ ⟨9999, 40, 3⟩ rfl⟩

/-! ### Input-boundary default angles (C6) -/

/-- C6 amended: for an input-boundary lane (start = 0) ending at a junction
in 1..16, the CY variant of `compute_lane_angle` returns exactly the default
of the claim — 90° in the top row, 270° in the bottom row, 0° in the left
column, 180° in the right column, 90° otherwise (rows checked first) — while
the RabbitMQ variant has no column cases and returns 90° for the top row,
270° for the bottom row and 90° everywhere else. -/
theorem c6_input_angle_defaults (atanDeg : ℚ → ℚ → ℚ) (lane : Lane)
    (h0 : lane.start_intersection = 0) (_h1 : 1 ≤ lane.end_intersection)
    (_h16 : lane.end_intersection ≤ 16) :
    (CY.compute_lane_angle atanDeg lane =
      (if (lane.end_intersection - 1) / 4 = 0 then 90
       else if (lane.end_intersection - 1) / 4 = 3 then 270
       else if (lane.end_intersection - 1) % 4 = 0 then 0
       else if (lane.end_intersection - 1) % 4 = 3 then 180
       else 90)) ∧
    (compute_lane_angle atanDeg lane =
      (if (lane.end_intersection - 1) / 4 = 0 then 90
       else if (lane.end_intersection - 1) / 4 = 3 then 270
       else 90)) := by
  have hrow0 : ((((lane.end_intersection - 1) / 4 : ℕ) : ℚ) = 0) ↔
      ((lane.end_intersection - 1) / 4 = 0) := by
    exact_mod_cast Iff.rfl
  have hrow3 : ((((lane.end_intersection - 1) / 4 : ℕ) : ℚ) = 3) ↔
      ((lane.end_intersection - 1) / 4 = 3) := by
    exact_mod_cast Iff.rfl
  have hcol0 : ((((lane.end_intersection - 1) % 4 : ℕ) : ℚ) = 0) ↔
      ((lane.end_intersection - 1) % 4 = 0) := by
    exact_mod_cast Iff.rfl
  have hcol3 : ((((lane.end_intersection - 1) % 4 : ℕ) : ℚ) = 3) ↔
      ((lane.end_intersection - 1) % 4 = 3) := by
    exact_mod_cast Iff.rfl
  constructor
  · simp only [CY.compute_lane_angle, intersection_to_coords, h0, ne_eq,
      not_true_eq_false, if_false, ite_not]
    split_ifs with a1 a2 a3 a4 b1 b2 b3 b4 <;>
      first
        | rfl
        | (exfalso; simp_all [hrow0, hrow3, hcol0, hcol3])
  · simp only [compute_lane_angle, intersection_to_coords, h0, ne_eq,
      not_true_eq_false, if_false, ite_not]
    split_ifs with a1 a2 b1 b2 <;>
      first
        | rfl
        | (exfalso; simp_all [hrow0, hrow3])

/-- C6 counterexample: input-boundary lane 0→5 (junction 5 sits in row 1,
column 0, so the claim requires the left-column default 0°); the RabbitMQ
`compute_lane_angle` returns 90° instead, because it has no column cases. -/
theorem c6_counterexample :
    compute_lane_angle atan2DegAxis ⟨1013, 0, 5, 400, .InputBoundary⟩ = 90 ∧
    compute_lane_angle atan2DegAxis ⟨1013, 0, 5, 400, .InputBoundary⟩ ≠ 0 := by
  constructor
  · norm_num [compute_lane_angle, intersection_to_coords]
  · norm_num [compute_lane_angle, intersection_to_coords]

/-- Witness for C6 (amended) on the input-boundary lane 0→2 (top row). -/
theorem c6_input_angle_defaults_witness :
    ((⟨1011, 0, 2, 300, .InputBoundary⟩ : Lane).start_intersection = 0 ∧
      1 ≤ (⟨1011, 0, 2, 300, .InputBoundary⟩ : Lane).end_intersection ∧
      (⟨1011, 0, 2, 300, .InputBoundary⟩ : Lane).end_intersection ≤ 16) ∧
    ((CY.compute_lane_angle atan2DegAxis ⟨1011, 0, 2, 300, .InputBoundary⟩ =
      (if ((⟨1011, 0, 2, 300, .InputBoundary⟩ : Lane).end_intersection - 1) / 4 = 0 then 90
       else if ((⟨1011, 0, 2, 300, .InputBoundary⟩ : Lane).end_intersection - 1) / 4 = 3 then 270
       else if ((⟨1011, 0, 2, 300, .InputBoundary⟩ : Lane).end_intersection - 1) % 4 = 0 then 0
       else if ((⟨1011, 0, 2, 300, .InputBoundary⟩ : Lane).end_intersection - 1) % 4 = 3 then 180
       else 90)) ∧
    (compute_lane_angle atan2DegAxis ⟨1011, 0, 2, 300, .InputBoundary⟩ =
      (if ((⟨1011, 0, 2, 300, .InputBoundary⟩ : Lane).end_intersection - 1) / 4 = 0 then 90
       else if ((⟨1011, 0, 2, 300, .InputBoundary⟩ : Lane).end_intersection - 1) / 4 = 3 then 270
       else 90))) :=
  ⟨⟨rfl, by norm_num, by norm_num⟩,
   c6_input_angle_defaults atan2DegAxis ⟨1011, 0, 2, 300, .InputBoundary⟩ rfl
     (by norm_num) (by norm_num)⟩

/-! ### Vehicle occupancy theorems (C4, C8) -/

/-- Recognizer for an enter event on lane `l`. -/
def isEnterOf (l : ℕ) : OccEvent → Bool
  | .enter i => i = l
  | .leave _ => false

/-- Recognizer for a leave event on lane `l`. -/
def isLeaveOf (l : ℕ) : OccEvent → Bool
  | .enter _ => false
  | .leave i => i = l

theorem carTrace_cons (lane : Lane) (rest : List Lane) :
    carTrace (lane :: rest) =
      OccEvent.enter lane.id :: OccEvent.leave lane.id :: carTrace rest := by
  simp [carTrace]

theorem occOf_take_nonneg (route : List Lane) (l k : ℕ) :
    0 ≤ occOf l ((carTrace route).take k) := by
  induction route generalizing k with
  | nil => simp [carTrace, occOf]
  | cons lane rest ih =>
    rw [carTrace_cons]
    match k with
    | 0 => simp [occOf]
    | 1 =>
      simp only [List.take_succ_cons, List.take_zero, occOf, List.map_cons, List.map_nil,
        List.sum_cons, List.sum_nil, occDelta]
      split_ifs <;> norm_num
    | Nat.succ (Nat.succ k2) =>
      simp only [List.take_succ_cons, occOf, List.map_cons, List.sum_cons, occDelta]
      have := ih k2
      simp only [occOf] at this
      split_ifs <;> omega

theorem occOf_carTrace_zero (route : List Lane) (l : ℕ) :
    occOf l (carTrace route) = 0 := by
  induction route with
  | nil => simp [carTrace, occOf]
  | cons lane rest ih =>
    rw [carTrace_cons]
    simp only [occOf, List.map_cons, List.sum_cons, occDelta]
    simp only [occOf] at ih
    split_ifs <;> omega

theorem carTrace_enter_eq_leave (route : List Lane) (l : ℕ) :
    (carTrace route).countP (isEnterOf l) = (carTrace route).countP (isLeaveOf l) := by
  induction route with
  | nil => simp [carTrace]
  | cons lane rest ih =>
    rw [carTrace_cons]
    by_cases h : lane.id = l <;>
      simp [List.countP_cons, isEnterOf, isLeaveOf, h, ih]

/-- C4: at every observable moment of any interleaving of the vehicle tasks
(each vehicle having executed an arbitrary prefix of its own mutation
sequence) every lane's occupancy is at least its initial value 0; each
vehicle's enter events on a lane are matched one-to-one by its leave events;
and when all vehicles have completed their full traces, every lane's
occupancy is back to its `initialize_simdata` value. -/
theorem c4_occupancy_conservation (routes : List (List Lane)) (ks : List ℕ) (l : ℕ) :
    0 ≤ occAt routes ks l ∧
    (∀ route ∈ routes,
      (carTrace route).countP (isEnterOf l) = (carTrace route).countP (isLeaveOf l)) ∧
    occAt routes (routes.map fun r => (carTrace r).length) l = initialize_simdata l := by
  refine ⟨?_, ?_, ?_⟩
  · unfold occAt initialize_simdata
    have : ∀ x ∈ (routes.zip ks).map (fun rk => occOf l ((carTrace rk.1).take rk.2)), 0 ≤ x := by
      intro x hx
      rcases List.mem_map.mp hx with ⟨rk, _, hval⟩
      exact hval ▸ occOf_take_nonneg rk.1 l rk.2
    have := List.sum_nonneg this
    omega
  · intro route _
    exact carTrace_enter_eq_leave route l
  · unfold occAt
    have hzip : routes.zip (routes.map fun r => (carTrace r).length) =
        routes.map fun r => (r, (carTrace r).length) := by
      induction routes with
      | nil => simp
      | cons r rest ih => simp [ih]
    rw [hzip]
    have : ((routes.map fun r => (r, (carTrace r).length)).map
        (fun rk => occOf l ((carTrace rk.1).take rk.2))) =
        routes.map fun r => occOf l (carTrace r) := by
      simp [List.map_map, Function.comp]
    rw [this]
    have hz : ∀ x ∈ routes.map (fun r => occOf l (carTrace r)), x = 0 := by
      intro x hx
      rcases List.mem_map.mp hx with ⟨r, _, hval⟩
      exact hval ▸ occOf_carTrace_zero r l
    rw [List.sum_eq_zero hz]
    simp

@[simp] theorem OccEvent.lane_enter (i : ℕ) : (OccEvent.enter i).lane = i := rfl

@[simp] theorem OccEvent.lane_leave (i : ℕ) : (OccEvent.leave i).lane = i := rfl

theorem carTrace_filter_eq (route : List Lane) (l : ℕ) :
    (carTrace route).filter (fun e => OccEvent.lane e == l) =
      (List.replicate ((route.map Lane.id).count l)
        [OccEvent.enter l, OccEvent.leave l]).flatten := by
  induction route with
  | nil => simp [carTrace]
  | cons lane rest ih =>
    rw [carTrace_cons]
    by_cases h : lane.id = l
    · subst h
      simp [List.filter_cons, List.count_cons, ih, List.replicate_succ]
    · simp [List.filter_cons, h, List.count_cons, ih]

theorem carTrace_take_leave_le_enter (route : List Lane) (l k : ℕ) :
    ((carTrace route).take k).countP (isLeaveOf l) ≤
      ((carTrace route).take k).countP (isEnterOf l) := by
  induction route generalizing k with
  | nil => simp [carTrace]
  | cons lane rest ih =>
    rw [carTrace_cons]
    match k with
    | 0 => simp
    | 1 => simp [List.countP_cons, isEnterOf, isLeaveOf]
    | Nat.succ (Nat.succ k2) =>
      have := ih k2
      by_cases h : lane.id = l <;>
        simp [List.take_succ_cons, List.countP_cons, isEnterOf, isLeaveOf, h, this]

/-- C8: a vehicle's own occupancy-mutation sequence (the points where the
source would also publish its updates), restricted to any single lane, is
exactly the alternation enter, leave, enter, leave, ... (one pair per
occurrence of the lane on the route); in particular in no prefix of the
vehicle's sequence do the leave events on a lane outnumber the enter
events — a leave never precedes its matching enter. -/
theorem c8_enter_before_leave (route : List Lane) (l : ℕ) :
    (carTrace route).filter (fun e => OccEvent.lane e == l) =
      (List.replicate ((route.map Lane.id).count l)
        [OccEvent.enter l, OccEvent.leave l]).flatten ∧
    ∀ k : ℕ, ((carTrace route).take k).countP (isLeaveOf l) ≤
      ((carTrace route).take k).countP (isEnterOf l) :=
  ⟨carTrace_filter_eq route l, fun k => carTrace_take_leave_le_enter route l k⟩

/-! ### Junction phase invariant (C1) -/

theorem applyPhase_apply (lane_list : List Lane) (grp : List ℕ)
    (lights : ℕ → LightColor) (v : ℕ) :
    applyPhase lane_list grp lights v =
      if v ∈ lane_list.map Lane.id then
        (if v ∈ grp then LightColor.Green else LightColor.Red)
      else lights v := by
  unfold applyPhase
  induction lane_list using List.reverseRecOn with
  | nil => simp
  | append_singleton ls l ih =>
    simp only [List.foldl_append, List.foldl_cons, List.foldl_nil, List.map_append,
      List.map_cons, List.map_nil, List.mem_append, List.mem_singleton]
    rw [Function.update_apply]
    by_cases hv : v = l.id
    · subst hv
      simp
    · simp only [if_neg hv, ih]
      have heq : (v ∈ ls.map Lane.id ∨ v = l.id) ↔ v ∈ ls.map Lane.id := by
        constructor
        · rintro (h | h)
          · exact h
          · exact absurd h hv
        · exact Or.inl
      exact (if_congr heq rfl rfl).symm

theorem applyAllRed_apply (lane_list : List Lane) (lights : ℕ → LightColor) (v : ℕ) :
    applyAllRed lane_list lights v =
      if v ∈ lane_list.map Lane.id then LightColor.Red else lights v := by
  unfold applyAllRed
  induction lane_list using List.reverseRecOn with
  | nil => simp
  | append_singleton ls l ih =>
    simp only [List.foldl_append, List.foldl_cons, List.foldl_nil, List.map_append,
      List.map_cons, List.map_nil, List.mem_append, List.mem_singleton]
    rw [Function.update_apply]
    by_cases hv : v = l.id
    · subst hv
      simp
    · simp only [if_neg hv, ih]
      have heq : (v ∈ ls.map Lane.id ∨ v = l.id) ↔ v ∈ ls.map Lane.id := by
        constructor
        · rintro (h | h)
          · exact h
          · exact absurd h hv
        · exact Or.inl
      exact (if_congr heq rfl rfl).symm

/-- C1 amended: along every execution of a junction's phase-cycling loop
alone (green phase, all-red clearance, index advance — no recommendation
handling), the set of Green lanes at the junction is at every observable
moment exactly one of the junction's groups or empty. -/
theorem c1_phase_only_invariant (atanDeg : ℚ → ℚ → ℚ) (lane_list : List Lane)
    (hne : lane_list ≠ []) (s : TLState)
    (hreach : Relation.ReflTransGen
      (PhaseStep lane_list (group_lanes_by_direction atanDeg lane_list)) initTL s) :
    OneGroupGreen lane_list (group_lanes_by_direction atanDeg lane_list) s := by
  set groups := group_lanes_by_direction atanDeg lane_list with hgroups
  have hglen : 0 < groups.length :=
    List.length_pos.mpr (groupLanesByAngle_ne_nil (compute_lane_angle atanDeg) lane_list hne)
  suffices h : s.group_index < groups.length ∧ OneGroupGreen lane_list groups s from h.2
  induction hreach with
  | refl =>
    refine ⟨hglen, Or.inl ?_⟩
    intro l _
    rfl
  | tail hab hbc ih =>
    rename_i b c
    cases hbc with
    | set_green =>
      refine ⟨ih.1, Or.inr ?_⟩
      have hgd : groups.getD b.group_index [] ∈ groups := by
        rw [List.getD_eq_getElem groups [] ih.1]
        exact List.getElem_mem ih.1
      refine ⟨groups.getD b.group_index [], hgd, ?_⟩
      intro l hl
      have hmem : l.id ∈ lane_list.map Lane.id := List.mem_map_of_mem Lane.id hl
      simp only [applyPhase_apply, hmem, if_true]
      by_cases hg : l.id ∈ groups.getD b.group_index [] <;> simp [hg]
    | set_all_red =>
      refine ⟨ih.1, Or.inl ?_⟩
      intro l hl
      have hmem : l.id ∈ lane_list.map Lane.id := List.mem_map_of_mem Lane.id hl
      simp [applyAllRed_apply, hmem]
    | advance =>
      refine ⟨Nat.mod_lt _ hglen, ?_⟩
      rcases ih.2 with h | ⟨g, hgmem, hgex⟩
      · exact Or.inl h
      · exact Or.inr ⟨g, hgmem, hgex⟩

/-- Witness for C1 (amended) at the initial state of a concrete junction. -/
theorem c1_phase_only_invariant_witness :
    (([⟨1, 5, 6, 400, .Internal⟩, ⟨2, 2, 6, 200, .Internal⟩] : List Lane) ≠ []) ∧
    OneGroupGreen [⟨1, 5, 6, 400, .Internal⟩, ⟨2, 2, 6, 200, .Internal⟩]
      (group_lanes_by_direction atan2DegAxis
        [⟨1, 5, 6, 400, .Internal⟩, ⟨2, 2, 6, 200, .Internal⟩]) initTL :=
  ⟨by simp,
   c1_phase_only_invariant atan2DegAxis _ (by simp) initTL Relation.ReflTransGen.refl⟩

/-- The two incoming lanes of junction 6 used in the C1 counterexample: lane
1 arrives from junction 5 (angle 90°), lane 2 from junction 2 (angle 0°), so
they fall into different groups. -/
def c1Lanes : List Lane := [⟨1, 5, 6, 400, .Internal⟩, ⟨2, 2, 6, 200, .Internal⟩]

/-- The groups the controller computes for that junction. -/
def c1Groups : List (List ℕ) := group_lanes_by_direction atan2DegAxis c1Lanes

/-- The state reached by: green phase for group 0 (lane 2 Green, lane 1 Red),
then a recommendation forcing lane 1 Green. -/
def c1Bad : TLState :=
  ⟨applyRecommendation [1, 2] 1
    (applyPhase c1Lanes [2] (fun _ => LightColor.Red)), 0⟩

theorem c1Groups_eval : c1Groups = [[2], [1]] := by
  norm_num [c1Groups, c1Lanes, group_lanes_by_direction, groupLanesByAngle, groupFold,
    insertLaneIntoGroups, compute_lane_angle, intersection_to_coords, atan2DegAxis,
    sortGroups, insertSortedGroup]

/-- C1 counterexample: with recommendation handling interleaved, the state
`c1Bad` is reachable (green phase for the first group, then a recommendation
for lane 1 of the other group), and there both lanes are Green: the Green
set is neither empty nor equal to any single group of the junction. -/
theorem c1_counterexample :
    Relation.ReflTransGen (TLStep c1Lanes c1Groups [1, 2]) initTL c1Bad ∧
    ¬ OneGroupGreen c1Lanes c1Groups c1Bad := by
  constructor
  · have hg : c1Groups.getD initTL.group_index [] = [2] := by rw [c1Groups_eval]; rfl
    have h1 : TLStep c1Lanes c1Groups [1, 2] initTL
        ⟨applyPhase c1Lanes [2] initTL.lights, initTL.group_index⟩ := by
      have hstep : TLStep c1Lanes c1Groups [1, 2] initTL
          ⟨applyPhase c1Lanes (c1Groups.getD initTL.group_index []) initTL.lights,
            initTL.group_index⟩ :=
        TLStep.phase _ _ (PhaseStep.set_green initTL)
      rwa [hg] at hstep
    have h2 : TLStep c1Lanes c1Groups [1, 2]
        ⟨applyPhase c1Lanes [2] initTL.lights, initTL.group_index⟩ c1Bad :=
      TLStep.recommend ⟨applyPhase c1Lanes [2] initTL.lights, initTL.group_index⟩ 1
    exact Relation.ReflTransGen.head h1 (Relation.ReflTransGen.single h2)
  · rw [c1Groups_eval]
    decide

/-! ### Dijkstra invariants and termination -/

theorem popMin_none (h : List (ℚ × ℕ)) : popMin h = none ↔ h = [] := by
  cases h with
  | nil => simp [popMin]
  | cons e es =>
    simp only [popMin]
    constructor
    · intro hc
      exfalso
      cases hpm : popMin es with
      | none => rw [hpm] at hc; simp at hc
      | some pr => rw [hpm] at hc; cases pr with
        | mk m rest => by_cases hle : e.1 ≤ m.1 <;> simp [hle] at hc
    · intro hc
      exact absurd hc (List.cons_ne_nil e es)

theorem popMin_spec (h : List (ℚ × ℕ)) (e : ℚ × ℕ) (rest : List (ℚ × ℕ))
    (hpop : popMin h = some (e, rest)) :
    List.Perm h (e :: rest) ∧ (∀ x ∈ rest, e.1 ≤ x.1) := by
  induction h generalizing e rest with
  | nil => simp [popMin] at hpop
  | cons a es ih =>
    simp only [popMin] at hpop
    cases hpm : popMin es with
    | none =>
      rw [hpm] at hpop
      have hes : es = [] := (popMin_none es).mp hpm
      subst hes
      simp only [Option.some_inj, Prod.mk.injEq] at hpop
      rcases hpop with ⟨he, hrest⟩
      subst he
      subst hrest
      exact ⟨List.Perm.refl _, by simp⟩
    | some pr =>
      rcases pr with ⟨m, rest2⟩
      rw [hpm] at hpop
      rcases ih m rest2 hpm with ⟨hperm, hmin⟩
      by_cases hle : a.1 ≤ m.1
      · simp only [if_pos hle, Option.some_inj, Prod.mk.injEq] at hpop
        rcases hpop with ⟨he, hrest⟩
        subst he
        subst hrest
        refine ⟨List.Perm.refl _, ?_⟩
        intro x hx
        have hx2 : x ∈ m :: rest2 := hperm.mem_iff.mp hx
        rcases List.mem_cons.mp hx2 with hx2 | hx2
        · exact hx2 ▸ hle
        · exact le_trans hle (hmin x hx2)
      · simp only [if_neg hle, Option.some_inj, Prod.mk.injEq] at hpop
        rcases hpop with ⟨he, hrest⟩
        subst he
        subst hrest
        constructor
        · exact ((hperm.cons a).trans (List.Perm.swap m a rest2))
        · intro x hx
          rcases List.mem_cons.mp hx with hx | hx
          · exact hx ▸ le_of_lt (lt_of_not_le hle)
          · exact hmin x hx

theorem countP_le_of_imp {α : Type} (l : List α) (p q : α → Bool)
    (h : ∀ x ∈ l, p x = true → q x = true) : l.countP p ≤ l.countP q := by
  induction l with
  | nil => simp
  | cons a t ih =>
    have ht : t.countP p ≤ t.countP q := ih fun x hx => h x (by simp [hx])
    by_cases hpa : p a = true
    · have hqa : q a = true := h a (by simp) hpa
      simp [List.countP_cons, hpa, hqa]
      omega
    · have hpa2 : p a = false := by simpa using hpa
      simp only [List.countP_cons, hpa2]
      by_cases hqa : q a = true <;> simp [hqa] <;> omega

theorem countP_lt_of_mem {α : Type} (l : List α) (p q : α → Bool)
    (hmono : ∀ x ∈ l, p x = true → q x = true) (x₀ : α) (hx : x₀ ∈ l)
    (hq : q x₀ = true) (hp : p x₀ = false) : l.countP p < l.countP q := by
  induction l with
  | nil => simp at hx
  | cons a t ih =>
    have hmt : ∀ x ∈ t, p x = true → q x = true := fun x hxt => hmono x (by simp [hxt])
    rcases List.mem_cons.mp hx with hx0 | hx0
    · subst hx0
      have htle : t.countP p ≤ t.countP q := countP_le_of_imp t p q hmt
      simp [List.countP_cons, hp, hq]
      omega
    · have hlt := ih hmt hx0
      by_cases hpa : p a = true
      · have hqa : q a = true := hmono a (by simp) hpa
        simp [List.countP_cons, hpa, hqa]
        omega
      · have hpa2 : p a = false := by simpa using hpa
        simp only [List.countP_cons, hpa2]
        by_cases hqa : q a = true <;> simp [hqa] <;> omega

theorem wt_ne_top_of_add_le {a b : WithTop ℚ} {x : ℚ}
    (h : a + (x : WithTop ℚ) ≤ b) (hb : b ≠ ⊤) : a ≠ ⊤ := by
  intro ha
  rw [ha] at h
  simp only [top_add] at h
  exact hb (top_le_iff.mp h)

theorem wt_lt_add_of_pos {a : WithTop ℚ} {x : ℚ} (ha : a ≠ ⊤) (hx : 0 < x) :
    a < a + (x : WithTop ℚ) := by
  lift a to ℚ using ha
  rw [← WithTop.coe_add, WithTop.coe_lt_coe]
  linarith

theorem wt_add_ne_top {a : WithTop ℚ} {x : ℚ} (ha : a ≠ ⊤) :
    a + (x : WithTop ℚ) ≠ ⊤ := by
  simp [WithTop.add_ne_top, ha]

/-- The invariants of the Dijkstra loop state: heap entries dominate the
current best costs, `prev` entries record a lane of the table consistent with
the current costs, every finite-cost node other than `start` has a
predecessor, `start` stays finite, and every finite-cost node is pending in
the heap at its exact cost or has all its outgoing lanes relaxed. -/
structure DGood (start : ℕ) (lanes : List Lane) (s : DState) : Prop where
  hheap : ∀ e ∈ s.heap, s.dist e.2 ≤ (e.1 : WithTop ℚ)
  hprev : ∀ v p l, s.prev v = some (p, l) →
    l ∈ lanes ∧ l.start_intersection = p ∧ l.end_intersection = v ∧
      s.dist v ≠ ⊤ ∧ s.dist p + (l.lane_length : WithTop ℚ) ≤ s.dist v
  hsrc : ∀ v, s.dist v ≠ ⊤ → v = start ∨ (s.prev v).isSome = true
  hstart : s.dist start ≠ ⊤
  hpend : ∀ u, s.dist u ≠ ⊤ →
    (∃ e ∈ s.heap, e.2 = u ∧ (e.1 : WithTop ℚ) = s.dist u) ∨
    ∀ l ∈ lanes, l.start_intersection = u →
      s.dist l.end_intersection ≤ s.dist u + (l.lane_length : WithTop ℚ)

theorem initDState_good (start : ℕ) (lanes : List Lane) :
    DGood start lanes (initDState start) := by
  refine ⟨?_, ?_, ?_, ?_, ?_⟩
  · intro e he
    simp only [initDState, List.mem_singleton] at he
    subst he
    simp [initDState]
  · intro v p l h
    simp [initDState] at h
  · intro v hv
    simp only [initDState] at hv
    by_cases h : v = start
    · exact Or.inl h
    · rw [if_neg h] at hv
      exact absurd rfl hv
  · simp [initDState]
  · intro u hu
    simp only [initDState] at hu
    by_cases h : u = start
    · subst h
      refine Or.inl ⟨((0 : ℚ), u), by simp [initDState], rfl, by simp [initDState]⟩
    · rw [if_neg h] at hu
      exact absurd rfl hu

theorem relaxStep_dist_le (u : ℕ) (c : ℚ) (t : DState) (l : Lane) (v : ℕ) :
    (relaxStep u c t l).dist v ≤ t.dist v := by
  unfold relaxStep
  by_cases h : (((c + l.lane_length : ℚ)) : WithTop ℚ) < t.dist l.end_intersection
  · simp only [if_pos h]
    by_cases hv : v = l.end_intersection
    · subst hv
      rw [Function.update_same]
      exact le_of_lt h
    · rw [Function.update_noteq hv]
  · simp only [if_neg h]
    exact le_refl _

theorem relaxAll_dist_le (u : ℕ) (c : ℚ) (ns : List Lane) (t : DState) (v : ℕ) :
    (relaxAll u c ns t).dist v ≤ t.dist v := by
  induction ns generalizing t with
  | nil => exact le_refl _
  | cons l rest ih =>
    calc (relaxAll u c (l :: rest) t).dist v
        = (relaxAll u c rest (relaxStep u c t l)).dist v := rfl
      _ ≤ (relaxStep u c t l).dist v := ih (relaxStep u c t l)
      _ ≤ t.dist v := relaxStep_dist_le u c t l v



/-- Mid-relaxation invariant: the `DGood` fields except that the popped node
`u` is exempt from the pending-or-relaxed obligation, and its cost is pinned
to the popped cost `c`. -/
structure RelaxMid (start : ℕ) (lanes : List Lane) (u : ℕ) (c : ℚ) (s : DState) : Prop where
  hheap : ∀ e ∈ s.heap, s.dist e.2 ≤ (e.1 : WithTop ℚ)
  hprev : ∀ v p l, s.prev v = some (p, l) →
    l ∈ lanes ∧ l.start_intersection = p ∧ l.end_intersection = v ∧
      s.dist v ≠ ⊤ ∧ s.dist p + (l.lane_length : WithTop ℚ) ≤ s.dist v
  hsrc : ∀ v, s.dist v ≠ ⊤ → v = start ∨ (s.prev v).isSome = true
  hstart : s.dist start ≠ ⊤
  hpend2 : ∀ v, v ≠ u → s.dist v ≠ ⊤ →
    (∃ e ∈ s.heap, e.2 = v ∧ (e.1 : WithTop ℚ) = s.dist v) ∨
    ∀ l ∈ lanes, l.start_intersection = v →
      s.dist l.end_intersection ≤ s.dist v + (l.lane_length : WithTop ℚ)
  hdu : s.dist u = (c : WithTop ℚ)

theorem relaxStep_eq (u : ℕ) (c : ℚ) (t : DState) (l : Lane) :
    relaxStep u c t l =
      if (((c + l.lane_length : ℚ)) : WithTop ℚ) < t.dist l.end_intersection then
        { dist := Function.update t.dist l.end_intersection
            (((c + l.lane_length : ℚ)) : WithTop ℚ),
          prev := Function.update t.prev l.end_intersection (some (u, l)),
          heap := t.heap ++ [((c + l.lane_length : ℚ), l.end_intersection)] }
      else t := rfl

theorem relaxStep_pos_eq (u : ℕ) (c : ℚ) (t : DState) (l : Lane)
    (h : (((c + l.lane_length : ℚ)) : WithTop ℚ) < t.dist l.end_intersection) :
    relaxStep u c t l =
      { dist := Function.update t.dist l.end_intersection
          (((c + l.lane_length : ℚ)) : WithTop ℚ),
        prev := Function.update t.prev l.end_intersection (some (u, l)),
        heap := t.heap ++ [((c + l.lane_length : ℚ), l.end_intersection)] } := by
  rw [relaxStep_eq, if_pos h]

theorem relaxStep_neg_eq (u : ℕ) (c : ℚ) (t : DState) (l : Lane)
    (h : ¬ (((c + l.lane_length : ℚ)) : WithTop ℚ) < t.dist l.end_intersection) :
    relaxStep u c t l = t := by
  rw [relaxStep_eq, if_neg h]

theorem relaxStep_heap_sub (u : ℕ) (c : ℚ) (t : DState) (l : Lane) :
    ∀ e ∈ t.heap, e ∈ (relaxStep u c t l).heap := by
  intro e he
  by_cases h : (((c + l.lane_length : ℚ)) : WithTop ℚ) < t.dist l.end_intersection
  · rw [relaxStep_pos_eq u c t l h]
    exact List.mem_append_left _ he
  · rw [relaxStep_neg_eq u c t l h]
    exact he

theorem relaxStep_mid (start : ℕ) (lanes : List Lane) (u : ℕ) (c : ℚ)
    (hpos : ∀ l ∈ lanes, 0 < l.lane_length) (l : Lane) (hl : l ∈ lanes)
    (hlu : l.start_intersection = u) (t : DState)
    (ht : RelaxMid start lanes u c t) :
    RelaxMid start lanes u c (relaxStep u c t l) ∧
      (relaxStep u c t l).dist l.end_intersection ≤
        (((c + l.lane_length : ℚ)) : WithTop ℚ) := by
  by_cases hpush : (((c + l.lane_length : ℚ)) : WithTop ℚ) < t.dist l.end_intersection
  case neg =>
    rw [relaxStep_neg_eq u c t l hpush]
    exact ⟨ht, le_of_not_lt hpush⟩
  case pos =>
  have hne : l.end_intersection ≠ u := by
    intro h
    rw [h, ht.hdu, WithTop.coe_lt_coe] at hpush
    have := hpos l hl
    linarith
  rw [relaxStep_pos_eq u c t l hpush]
  have hdistle : ∀ v, Function.update t.dist l.end_intersection
      (((c + l.lane_length : ℚ)) : WithTop ℚ) v ≤ t.dist v := by
    intro v
    by_cases hv : v = l.end_intersection
    · subst hv
      rw [Function.update_same]
      exact le_of_lt hpush
    · rw [Function.update_noteq hv]
  refine ⟨⟨?_, ?_, ?_, ?_, ?_, ?_⟩, ?_⟩
  · intro e he
    dsimp only at he ⊢
    rcases List.mem_append.mp he with he | he
    · exact le_trans (hdistle e.2) (ht.hheap e he)
    · simp only [List.mem_singleton] at he
      subst he
      dsimp only
      rw [Function.update_same]
  · intro v p l2 hpl
    dsimp only at hpl ⊢
    by_cases hv : v = l.end_intersection
    · subst hv
      rw [Function.update_same] at hpl
      injection hpl with hpl2
      injection hpl2 with hp hl2
      subst hp
      subst hl2
      refine ⟨hl, hlu, rfl, ?_, ?_⟩
      · rw [Function.update_same]
        exact WithTop.coe_ne_top
      · rw [Function.update_same, Function.update_noteq (Ne.symm hne), ht.hdu,
          ← WithTop.coe_add]
    · rw [Function.update_noteq hv] at hpl
      rcases ht.hprev v p l2 hpl with ⟨h1, h2, h3, h4, h5⟩
      refine ⟨h1, h2, h3, ?_, ?_⟩
      · rw [Function.update_noteq hv]
        exact h4
      · rw [Function.update_noteq hv]
        exact le_trans (add_le_add_right (hdistle p) _) h5
  · intro v hv
    dsimp only at hv ⊢
    by_cases hveq : v = l.end_intersection
    · subst hveq
      right
      rw [Function.update_same]
      rfl
    · rw [Function.update_noteq hveq] at hv
      rcases ht.hsrc v hv with h | h
      · exact Or.inl h
      · right
        rw [Function.update_noteq hveq]
        exact h
  · dsimp only
    by_cases hs : start = l.end_intersection
    · rw [hs, Function.update_same]
      exact WithTop.coe_ne_top
    · rw [Function.update_noteq hs]
      exact ht.hstart
  · intro v hvu hv
    dsimp only at hv ⊢
    by_cases hveq : v = l.end_intersection
    · subst hveq
      left
      refine ⟨((c + l.lane_length : ℚ), l.end_intersection), ?_, rfl, ?_⟩
      · exact List.mem_append_right _ (by simp)
      · rw [Function.update_same]
    · rw [Function.update_noteq hveq] at hv
      rcases ht.hpend2 v hvu hv with ⟨e, he, he2, he3⟩ | h
      · left
        refine ⟨e, List.mem_append_left _ he, he2, ?_⟩
        rw [Function.update_noteq hveq]
        exact he3
      · right
        intro l2 hl2 hl2s
        rw [Function.update_noteq hveq]
        exact le_trans (hdistle l2.end_intersection) (h l2 hl2 hl2s)
  · dsimp only
    rw [Function.update_noteq (Ne.symm hne)]
    exact ht.hdu
  · dsimp only
    rw [Function.update_same]

theorem relaxAll_mid (start : ℕ) (lanes : List Lane) (u : ℕ) (c : ℚ)
    (hpos : ∀ l ∈ lanes, 0 < l.lane_length) (ns : List Lane)
    (hns : ∀ l ∈ ns, l ∈ lanes ∧ l.start_intersection = u) (t : DState)
    (ht : RelaxMid start lanes u c t) :
    RelaxMid start lanes u c (relaxAll u c ns t) ∧
      ∀ l ∈ ns, (relaxAll u c ns t).dist l.end_intersection ≤
        (((c + l.lane_length : ℚ)) : WithTop ℚ) := by
  induction ns generalizing t with
  | nil => exact ⟨ht, by simp⟩
  | cons l rest ih =>
    rcases hns l (by simp) with ⟨hl, hlu⟩
    rcases relaxStep_mid start lanes u c hpos l hl hlu t ht with ⟨hmid1, hbound1⟩
    rcases ih (fun x hx => hns x (by simp [hx])) (relaxStep u c t l) hmid1 with ⟨hmid2, hbound2⟩
    refine ⟨hmid2, ?_⟩
    intro l2 hl2
    rcases List.mem_cons.mp hl2 with hl2 | hl2
    · rw [hl2]
      exact le_trans (relaxAll_dist_le u c rest (relaxStep u c t l) l.end_intersection) hbound1
    · exact hbound2 l2 hl2

theorem laneNeighbors_mem (lanes : List Lane) (u : ℕ) :
    ∀ l ∈ laneNeighbors lanes u, l ∈ lanes ∧ l.start_intersection = u := by
  intro l hl
  rcases List.mem_filter.mp hl with ⟨h1, h2⟩
  exact ⟨h1, by simpa using h2⟩

theorem laneNeighbors_complete (lanes : List Lane) (u : ℕ) (l : Lane)
    (hl : l ∈ lanes) (hlu : l.start_intersection = u) : l ∈ laneNeighbors lanes u := by
  exact List.mem_filter.mpr ⟨hl, by simpa using hlu⟩

/-- The full reestablishment of `DGood` across one non-stale, non-break loop
iteration: pop a minimal entry `(c, u)`, then relax all lanes leaving `u`. -/
theorem dgood_step (start : ℕ) (lanes : List Lane) (c : ℚ) (u : ℕ)
    (hpos : ∀ l ∈ lanes, 0 < l.lane_length) (s : DState)
    (hg : DGood start lanes s) (rest : List (ℚ × ℕ))
    (hperm : List.Perm s.heap ((c, u) :: rest))
    (hstale : ¬ s.dist u < (c : WithTop ℚ)) :
    DGood start lanes (relaxAll u c (laneNeighbors lanes u) { s with heap := rest }) := by
  have hcu : (c, u) ∈ s.heap := hperm.mem_iff.mpr (by simp)
  have hdu : s.dist u = (c : WithTop ℚ) :=
    le_antisymm (hg.hheap (c, u) hcu) (le_of_not_lt hstale)
  have hmid0 : RelaxMid start lanes u c { s with heap := rest } := by
    refine ⟨?_, hg.hprev, hg.hsrc, hg.hstart, ?_, hdu⟩
    · intro e he
      exact hg.hheap e (hperm.mem_iff.mpr (by simp [he]))
    · intro v hvu hv
      rcases hg.hpend v hv with ⟨e, he, he2, he3⟩ | h
      · left
        refine ⟨e, ?_, he2, he3⟩
        have : e ∈ (c, u) :: rest := hperm.mem_iff.mp he
        rcases List.mem_cons.mp this with hh | hh
        · exfalso
          apply hvu
          rw [← he2, hh]
      
        · exact hh
      · exact Or.inr h
  rcases relaxAll_mid start lanes u c hpos (laneNeighbors lanes u)
    (laneNeighbors_mem lanes u) _ hmid0 with ⟨hmid, hbounds⟩
  refine ⟨hmid.hheap, hmid.hprev, hmid.hsrc, hmid.hstart, ?_⟩
  intro v hv
  by_cases hvu : v = u
  · subst hvu
    right
    intro l hl hlu
    have hlm := laneNeighbors_complete lanes v l hl hlu
    calc (relaxAll v c (laneNeighbors lanes v) { s with heap := rest }).dist l.end_intersection
        ≤ (((c + l.lane_length : ℚ)) : WithTop ℚ) := hbounds l hlm
      _ = (c : WithTop ℚ) + (l.lane_length : WithTop ℚ) := by rw [WithTop.coe_add]
      _ = (relaxAll v c (laneNeighbors lanes v) { s with heap := rest }).dist v +
            (l.lane_length : WithTop ℚ) := by rw [hmid.hdu]
  · rcases hmid.hpend2 v hvu hv with h | h
    · exact Or.inl h
    · exact Or.inr h

/-- Every finite-cost node has all its outgoing lanes relaxed. -/
def AllRelaxed (lanes : List Lane) (s : DState) : Prop :=
  ∀ u, s.dist u ≠ ⊤ → ∀ l ∈ lanes, l.start_intersection = u →
    s.dist l.end_intersection ≤ s.dist u + (l.lane_length : WithTop ℚ)

/-- The fields of `DGood` that survive to the exit state and drive the path
reconstruction. -/
structure PrevGood (start : ℕ) (lanes : List Lane) (s : DState) : Prop where
  hprev : ∀ v p l, s.prev v = some (p, l) →
    l ∈ lanes ∧ l.start_intersection = p ∧ l.end_intersection = v ∧
      s.dist v ≠ ⊤ ∧ s.dist p + (l.lane_length : WithTop ℚ) ≤ s.dist v
  hsrc : ∀ v, s.dist v ≠ ⊤ → v = start ∨ (s.prev v).isSome = true
  hstart : s.dist start ≠ ⊤

theorem dijkstraLoop_spec (start endI : ℕ) (lanes : List Lane)
    (hpos : ∀ l ∈ lanes, 0 < l.lane_length) :
    ∀ fuel s s2, DGood start lanes s →
      dijkstraLoop endI lanes fuel s = some s2 →
      PrevGood start lanes s2 ∧ (s2.dist endI ≠ ⊤ ∨ AllRelaxed lanes s2) := by
  intro fuel
  induction fuel with
  | zero =>
    intro s s2 hg heq
    simp [dijkstraLoop] at heq
  | succ fuel ih =>
    intro s s2 hg heq
    simp only [dijkstraLoop] at heq
    cases hpop : popMin s.heap with
    | none =>
      rw [hpop] at heq
      simp only [Option.some_inj] at heq
      subst heq
      refine ⟨⟨hg.hprev, hg.hsrc, hg.hstart⟩, Or.inr ?_⟩
      have hempty : s.heap = [] := (popMin_none s.heap).mp hpop
      intro u hu l hl hlu
      rcases hg.hpend u hu with ⟨e, he, _, _⟩ | h
      · rw [hempty] at he
        simp at he
      · exact h l hl hlu
    | some pr =>
      rcases pr with ⟨⟨c, u⟩, rest⟩
      rw [hpop] at heq
      dsimp only at heq
      rcases popMin_spec s.heap (c, u) rest hpop with ⟨hperm, hminrest⟩
      by_cases hbreak : u = endI
      · rw [if_pos hbreak] at heq
        simp only [Option.some_inj] at heq
        subst heq
        refine ⟨⟨hg.hprev, hg.hsrc, hg.hstart⟩, Or.inl ?_⟩
        have hcu : (c, u) ∈ s.heap := hperm.mem_iff.mpr (by simp)
        have hle := hg.hheap (c, u) hcu
        rw [hbreak] at hle
        exact ne_top_of_le_ne_top WithTop.coe_ne_top hle
      · rw [if_neg hbreak] at heq
        by_cases hstale : s.dist u < (c : WithTop ℚ)
        · rw [if_pos hstale] at heq
          refine ih { s with heap := rest } s2 ?_ heq
          refine ⟨?_, hg.hprev, hg.hsrc, hg.hstart, ?_⟩
          · intro e he
            exact hg.hheap e (hperm.mem_iff.mpr (by simp [he]))
          · intro v hv
            rcases hg.hpend v hv with ⟨e, he, he2, he3⟩ | h
            · left
              refine ⟨e, ?_, he2, he3⟩
              have hmem : e ∈ (c, u) :: rest := hperm.mem_iff.mp he
              rcases List.mem_cons.mp hmem with hh | hh
              · exfalso
                have huv : u = v := by rw [hh] at he2; exact he2
                have hcv : (c : WithTop ℚ) = s.dist v := by rw [hh] at he3; exact he3
                rw [← huv] at hcv
                rw [← hcv] at hstale
                exact lt_irrefl _ hstale
              · exact hh
            · exact Or.inr h
        · rw [if_neg hstale] at heq
          exact ih _ s2 (dgood_step start lanes c u hpos s hg rest hperm hstale) heq

/-- Count of lanes that could still trigger a heap push, given that every
future popped cost is at least `c`. -/
def ccount (c : ℚ) (lanes : List Lane) (dist : ℕ → WithTop ℚ) : ℕ :=
  lanes.countP fun l =>
    decide ((((c + l.lane_length : ℚ)) : WithTop ℚ) < dist l.end_intersection)

theorem ccount_mono (lanes : List Lane) (dist : ℕ → WithTop ℚ) (c c2 : ℚ)
    (h : c ≤ c2) : ccount c2 lanes dist ≤ ccount c lanes dist := by
  refine countP_le_of_imp lanes _ _ ?_
  intro l _ hl
  rw [decide_eq_true_eq] at hl ⊢
  refine lt_of_le_of_lt ?_ hl
  rw [WithTop.coe_le_coe]
  linarith

theorem relaxStep_measure (lanes : List Lane) (u : ℕ) (c : ℚ) (l : Lane)
    (hl : l ∈ lanes) (hlen : 0 ≤ l.lane_length) (t : DState)
    (hheapc : ∀ e ∈ t.heap, c ≤ e.1) :
    (∀ e ∈ (relaxStep u c t l).heap, c ≤ e.1) ∧
    (relaxStep u c t l).heap.length + 2 * ccount c lanes (relaxStep u c t l).dist ≤
      t.heap.length + 2 * ccount c lanes t.dist := by
  by_cases hpush : (((c + l.lane_length : ℚ)) : WithTop ℚ) < t.dist l.end_intersection
  · rw [relaxStep_pos_eq u c t l hpush]
    dsimp only
    constructor
    · intro e he
      rcases List.mem_append.mp he with he | he
      · exact hheapc e he
      · simp only [List.mem_singleton] at he
        subst he
        dsimp only
        linarith
    · have hdistle : ∀ v, Function.update t.dist l.end_intersection
          (((c + l.lane_length : ℚ)) : WithTop ℚ) v ≤ t.dist v := by
        intro v
        by_cases hv : v = l.end_intersection
        · subst hv
          rw [Function.update_same]
          exact le_of_lt hpush
        · rw [Function.update_noteq hv]
      have hcnt : ccount c lanes (Function.update t.dist l.end_intersection
          (((c + l.lane_length : ℚ)) : WithTop ℚ)) < ccount c lanes t.dist := by
        refine countP_lt_of_mem lanes _ _ ?_ l hl ?_ ?_
        · intro x _ hx
          rw [decide_eq_true_eq] at hx ⊢
          exact lt_of_lt_of_le hx (hdistle x.end_intersection)
        · rw [decide_eq_true_eq]
          exact hpush
        · rw [decide_eq_false_iff_not]
          rw [Function.update_same]
          exact lt_irrefl _
      simp only [List.length_append, List.length_singleton]
      omega
  · rw [relaxStep_neg_eq u c t l hpush]
    exact ⟨hheapc, le_refl _⟩

theorem relaxAll_measure (lanes : List Lane) (u : ℕ) (c : ℚ) (ns : List Lane)
    (hns : ∀ l ∈ ns, l ∈ lanes) (hlen : ∀ l ∈ ns, 0 ≤ l.lane_length) :
    ∀ t : DState, (∀ e ∈ t.heap, c ≤ e.1) →
    (∀ e ∈ (relaxAll u c ns t).heap, c ≤ e.1) ∧
    (relaxAll u c ns t).heap.length + 2 * ccount c lanes (relaxAll u c ns t).dist ≤
      t.heap.length + 2 * ccount c lanes t.dist := by
  induction ns with
  | nil => exact fun t ht => ⟨ht, le_refl _⟩
  | cons l rest ih =>
    intro t ht
    rcases relaxStep_measure lanes u c l (hns l (by simp)) (hlen l (by simp)) t ht with
      ⟨h1, h2⟩
    rcases ih (fun x hx => hns x (by simp [hx])) (fun x hx => hlen x (by simp [hx]))
      (relaxStep u c t l) h1 with ⟨h3, h4⟩
    exact ⟨h3, le_trans h4 h2⟩

theorem dijkstraLoop_total (endI : ℕ) (lanes : List Lane)
    (hlen : ∀ l ∈ lanes, 0 ≤ l.lane_length) :
    ∀ fuel (c0 : ℚ) (s : DState), (∀ e ∈ s.heap, c0 ≤ e.1) →
      s.heap.length + 2 * ccount c0 lanes s.dist < fuel →
      (dijkstraLoop endI lanes fuel s).isSome = true := by
  intro fuel
  induction fuel with
  | zero =>
    intro c0 s _ hm
    omega
  | succ fuel ih =>
    intro c0 s hheapc hm
    simp only [dijkstraLoop]
    cases hpop : popMin s.heap with
    | none => simp
    | some pr =>
      rcases pr with ⟨⟨c, u⟩, rest⟩
      dsimp only
      rcases popMin_spec s.heap (c, u) rest hpop with ⟨hperm, hminrest⟩
      have hlenheap : s.heap.length = rest.length + 1 := by
        have := hperm.length_eq
        simpa using this
      have hc0c : c0 ≤ c := hheapc (c, u) (hperm.mem_iff.mpr (by simp))
      have hcnt : ccount c lanes s.dist ≤ ccount c0 lanes s.dist :=
        ccount_mono lanes s.dist c0 c hc0c
      by_cases hbreak : u = endI
      · rw [if_pos hbreak]
        simp
      · rw [if_neg hbreak]
        by_cases hstale : s.dist u < (c : WithTop ℚ)
        · rw [if_pos hstale]
          refine ih c { s with heap := rest } hminrest ?_
          dsimp only
          omega
        · rw [if_neg hstale]
          rcases relaxAll_measure lanes u c (laneNeighbors lanes u)
            (fun l hl => (laneNeighbors_mem lanes u l hl).1)
            (fun l hl => hlen l (laneNeighbors_mem lanes u l hl).1)
            { s with heap := rest } hminrest with ⟨h1, h2⟩
          refine ih c _ h1 ?_
          dsimp only at h2
          omega

theorem Chain.append_lane (lanes : List Lane) {a b : ℕ} {r : List Lane}
    (h : Chain lanes a b r) (l : Lane) (hl : l ∈ lanes)
    (hlb : l.start_intersection = b) : Chain lanes a l.end_intersection (r ++ [l]) := by
  induction h with
  | nil a =>
    rw [List.nil_append, ← hlb]
    exact Chain.cons l l.end_intersection [] hl (Chain.nil l.end_intersection)
  | cons l2 b2 rest hl2 hch ih =>
    rw [List.cons_append]
    exact Chain.cons l2 l.end_intersection (rest ++ [l]) hl2 (ih hlb)

/-- Number of candidate chain nodes whose cost lies strictly below the cost of
`cur`: the strict-decrease measure of the reconstruction loop. -/
def reachMeasure (lanes : List Lane) (dist : ℕ → WithTop ℚ) (start cur : ℕ) : ℕ :=
  ((start :: lanes.map Lane.end_intersection).dedup).countP fun v =>
    decide (dist v < dist cur)

theorem buildPath_ok (start : ℕ) (lanes : List Lane) (s : DState)
    (hpg : PrevGood start lanes s) (hpos : ∀ l ∈ lanes, 0 < l.lane_length) :
    ∀ fuel cur, s.dist cur ≠ ⊤ → reachMeasure lanes s.dist start cur < fuel →
      ∃ p, buildPath start s.prev fuel cur = some p ∧ Chain lanes start cur p := by
  intro fuel
  induction fuel with
  | zero =>
    intro cur _ hm
    omega
  | succ fuel ih =>
    intro cur hcur hm
    by_cases hcs : cur = start
    · subst hcs
      exact ⟨[], by simp [buildPath], Chain.nil cur⟩
    · have hsome : (s.prev cur).isSome = true := by
        rcases hpg.hsrc cur hcur with h | h
        · exact absurd h hcs
        · exact h
      cases hp : s.prev cur with
      | none => rw [hp] at hsome; simp at hsome
      | some pl =>
        rcases pl with ⟨pnode, l⟩
        rcases hpg.hprev cur pnode l hp with ⟨hl, hlp, hlend, _, hlecost⟩
        have hdp_ne : s.dist pnode ≠ ⊤ := wt_ne_top_of_add_le hlecost hcur
        have hstrict : s.dist pnode < s.dist cur :=
          lt_of_lt_of_le (wt_lt_add_of_pos hdp_ne (hpos l hl)) hlecost
        have hpmem : pnode ∈ (start :: lanes.map Lane.end_intersection).dedup := by
          rw [List.mem_dedup]
        
          by_cases hps : pnode = start
        
          · rw [hps]; simp
          · rcases hpg.hsrc pnode hdp_ne with h | h
            · exact absurd h hps
            · cases hp2 : s.prev pnode with
              | none => rw [hp2] at h; simp at h
              | some pl2 =>
                rcases pl2 with ⟨q, l2⟩
                rcases hpg.hprev pnode q l2 hp2 with ⟨hl2, _, hl2end, _, _⟩
                right
                rw [← hl2end]
                exact List.mem_map_of_mem Lane.end_intersection hl2
        have hmlt : reachMeasure lanes s.dist start pnode <
            reachMeasure lanes s.dist start cur := by
          refine countP_lt_of_mem _ _ _ ?_ pnode hpmem ?_ ?_
          · intro x _ hx
            rw [decide_eq_true_eq] at hx ⊢
            exact lt_trans hx hstrict
          · rw [decide_eq_true_eq]
            exact hstrict
          · rw [decide_eq_false_iff_not]
            exact lt_irrefl _
        rcases ih pnode hdp_ne (by omega) with ⟨p2, hbp, hch⟩
        refine ⟨p2 ++ [l], ?_, ?_⟩
        · simp only [buildPath, if_neg hcs, hp]
          rw [hbp]
          rfl
        · rw [← hlend]
          exact Chain.append_lane lanes hch l hl hlp

theorem reachMeasure_lt_buildFuel (lanes : List Lane) (dist : ℕ → WithTop ℚ)
    (start cur : ℕ) : reachMeasure lanes dist start cur < buildFuel lanes := by
  unfold reachMeasure buildFuel
  have h1 : ((start :: lanes.map Lane.end_intersection).dedup).countP
        (fun v => decide (dist v < dist cur)) ≤
      ((start :: lanes.map Lane.end_intersection).dedup).length :=
    List.countP_le_length _
  have h2 : (start :: lanes.map Lane.end_intersection).dedup.length ≤
      (start :: lanes.map Lane.end_intersection).length :=
    (List.dedup_sublist _).length_le
  simp only [List.length_cons, List.length_map] at h2
  omega

theorem find_lane_path_run (start endI : ℕ) (lanes : List Lane)
    (hpos : ∀ l ∈ lanes, 0 < l.lane_length) :
    ∃ s2, dijkstraLoop endI lanes (dijkstraFuel lanes) (initDState start) = some s2 ∧
      PrevGood start lanes s2 ∧ (s2.dist endI ≠ ⊤ ∨ AllRelaxed lanes s2) := by
  have hlen : ∀ l ∈ lanes, 0 ≤ l.lane_length := fun l hl => le_of_lt (hpos l hl)
  have htot := dijkstraLoop_total endI lanes hlen (dijkstraFuel lanes) 0 (initDState start)
    (by
      intro e he
      simp only [initDState, List.mem_singleton] at he
      subst he
      exact le_refl _)
    (by
      have hcc : lanes.countP
            (fun l => decide ((((0 + l.lane_length : ℚ)) : WithTop ℚ) <
              (initDState start).dist l.end_intersection)) ≤ lanes.length :=
        List.countP_le_length _
      have hlen1 : (initDState start).heap.length = 1 := by simp [initDState]
      unfold dijkstraFuel ccount
      omega)
  cases hrun : dijkstraLoop endI lanes (dijkstraFuel lanes) (initDState start) with
  | none => rw [hrun] at htot; simp at htot
  | some s2 =>
    exact ⟨s2, rfl, dijkstraLoop_spec start endI lanes hpos (dijkstraFuel lanes)
      (initDState start) s2 (initDState_good start lanes) hrun⟩

theorem chain_dist_ne_top (lanes : List Lane) (s : DState)
    (hrel : AllRelaxed lanes s) {a b : ℕ} {r : List Lane}
    (h : Chain lanes a b r) (ha : s.dist a ≠ ⊤) : s.dist b ≠ ⊤ := by
  induction h with
  | nil a => exact ha
  | cons l b rest hl hch ih =>
    refine ih ?_
    have hle := hrel l.start_intersection ha l hl rfl
    exact ne_top_of_le_ne_top (wt_add_ne_top ha) hle

/-- The trichotomy-free outcome of `find_lane_path`: for positive lane
lengths the model never exhausts fuel, and it returns a chained route exactly
when one exists. -/
theorem find_lane_path_cases (start endI : ℕ) (lanes : List Lane)
    (hpos : ∀ l ∈ lanes, 0 < l.lane_length) :
    (∃ route, find_lane_path start endI lanes = some (some route) ∧
      Chain lanes start endI route) ∨
    (find_lane_path start endI lanes = some none ∧
      ¬ ∃ r, Chain lanes start endI r) := by
  rcases find_lane_path_run start endI lanes hpos with ⟨s2, hrun, hpg, hexit⟩
  by_cases hT : s2.dist endI = ⊤
  · right
    constructor
    · unfold find_lane_path
      rw [hrun]
      dsimp only
      rw [if_pos hT]
    · rintro ⟨r, hch⟩
      rcases hexit with h | h
      · exact h hT
      · exact (chain_dist_ne_top lanes s2 h hch hpg.hstart) hT
  · left
    rcases buildPath_ok start lanes s2 hpg hpos (buildFuel lanes) endI hT
      (reachMeasure_lt_buildFuel lanes s2.dist start endI) with ⟨p, hbp, hch⟩
    refine ⟨p, ?_, hch⟩
    unfold find_lane_path
    rw [hrun]
    dsimp only
    rw [if_neg hT, hbp]
    rfl

theorem chain_get_zero_start (lanes : List Lane) {a b : ℕ} {r : List Lane}
    (h : Chain lanes a b r) (h0 : 0 < r.length) :
    (r.get ⟨0, h0⟩).start_intersection = a := by
  cases h with
  | nil a => simp at h0
  | cons l b rest hl hch => rfl

theorem chain_nil_inv (lanes : List Lane) {a b : ℕ} (h : Chain lanes a b []) :
    a = b := by
  cases h
  rfl

theorem chain_last_end (lanes : List Lane) {a b : ℕ} {r : List Lane}
    (h : Chain lanes a b r) (hne : r ≠ []) :
    (r.getLast hne).end_intersection = b := by
  induction h with
  | nil a => exact absurd rfl hne
  | cons l b rest hl hch ih =>
    by_cases hrest : rest = []
    · subst hrest
      have hb := chain_nil_inv lanes hch
      simpa using hb
    · rw [List.getLast_cons hrest]
      exact ih hrest

theorem chain_get_succ (lanes : List Lane) :
    ∀ (r : List Lane) (a b : ℕ), Chain lanes a b r →
      ∀ i (hi : i + 1 < r.length),
        (r.get ⟨i, Nat.lt_of_succ_lt hi⟩).end_intersection =
          (r.get ⟨i + 1, hi⟩).start_intersection := by
  intro r
  induction r with
  | nil =>
    intro a b _ i hi
    simp at hi
  | cons l rest ih =>
    intro a b h i hi
    cases h with
    | cons _ _ _ hl hch =>
      match i with
      | 0 =>
        have h0 : 0 < rest.length := by
          simp only [List.length_cons] at hi
          omega
        have := chain_get_zero_start lanes hch h0
        simpa using this.symm
      | Nat.succ i2 =>
        have hi2 : i2 + 1 < rest.length := by
          simp only [List.length_cons] at hi
          omega
        have := ih l.end_intersection b hch i2 hi2
        simpa using this

theorem find_lane_path_self (start : ℕ) (lanes : List Lane) :
    find_lane_path start start lanes = some (some []) := by
  have h1 : dijkstraFuel lanes = (2 * lanes.length + 1) + 1 := rfl
  have h2 : buildFuel lanes = (lanes.length + 1) + 1 := rfl
  unfold find_lane_path
  rw [h1]
  simp only [dijkstraLoop, initDState, popMin]
  simp only [if_true]
  rw [h2]
  simp [buildPath]

/-- C2: for every start and end intersection, `find_lane_path` returns the
empty route when start = end, and whenever a chained path over the given
lanes exists it returns a route whose first lane starts at `start`, whose
consecutive lanes are linked end-to-start, and whose last lane ends at
`end` (for all positive lane lengths, as in the lane table). -/
theorem c2_route_planner (start endI : ℕ) (lanes : List Lane)
    (hpos : ∀ l ∈ lanes, 0 < l.lane_length) :
    find_lane_path start start lanes = some (some []) ∧
    ((∃ r, Chain lanes start endI r) →
      ∃ route, find_lane_path start endI lanes = some (some route) ∧
        (route = [] → start = endI) ∧
        (∀ hne : route ≠ [],
          (route.get ⟨0, List.length_pos.mpr hne⟩).start_intersection = start ∧
          (route.getLast hne).end_intersection = endI) ∧
        (∀ i (hi : i + 1 < route.length),
          (route.get ⟨i, Nat.lt_of_succ_lt hi⟩).end_intersection =
            (route.get ⟨i + 1, hi⟩).start_intersection)) := by
  refine ⟨find_lane_path_self start lanes, ?_⟩
  rintro ⟨r, hch⟩
  rcases find_lane_path_cases start endI lanes hpos with ⟨route, heq, hroute⟩ | ⟨_, hno⟩
  · refine ⟨route, heq, ?_, ?_, ?_⟩
    · intro hnil
      subst hnil
      exact chain_nil_inv lanes hroute
    · intro hne
      exact ⟨chain_get_zero_start lanes hroute (List.length_pos.mpr hne),
        chain_last_end lanes hroute hne⟩
    · exact chain_get_succ lanes route start endI hroute
  · exact absurd ⟨r, hch⟩ hno

/-- Witness for C2 on the one-lane table 1 → 2. -/
theorem c2_route_planner_witness :
    (∀ l ∈ ([⟨10, 1, 2, 5, .Internal⟩] : List Lane), 0 < l.lane_length) ∧
    (find_lane_path 1 1 [⟨10, 1, 2, 5, .Internal⟩] = some (some []) ∧
    ((∃ r, Chain [⟨10, 1, 2, 5, .Internal⟩] 1 2 r) →
      ∃ route, find_lane_path 1 2 [⟨10, 1, 2, 5, .Internal⟩] = some (some route) ∧
        (route = [] → 1 = 2) ∧
        (∀ hne : route ≠ [],
          (route.get ⟨0, List.length_pos.mpr hne⟩).start_intersection = 1 ∧
          (route.getLast hne).end_intersection = 2) ∧
        (∀ i (hi : i + 1 < route.length),
          (route.get ⟨i, Nat.lt_of_succ_lt hi⟩).end_intersection =
            (route.get ⟨i + 1, hi⟩).start_intersection))) := by
  have hpos : ∀ l ∈ ([⟨10, 1, 2, 5, .Internal⟩] : List Lane), 0 < l.lane_length := by
    intro l hl
    rw [List.mem_singleton] at hl
    subst hl
    norm_num
  exact ⟨hpos, c2_route_planner 1 2 [⟨10, 1, 2, 5, .Internal⟩] hpos⟩

/-- C7: `find_lane_path` returns `None` exactly when no chained path over
the given internal lanes exists from start to end, and the caller
(`simulate_car`) maps that `None` to the empty route, proceeding directly
from its entry lane to its exit lane. -/
theorem c7_none_iff_no_path (start endI : ℕ) (lanes : List Lane)
    (hpos : ∀ l ∈ lanes, 0 < l.lane_length) :
    (find_lane_path start endI lanes = some none ↔
      ¬ ∃ r, Chain lanes start endI r) ∧
    car_route none = [] := by
  refine ⟨⟨?_, ?_⟩, rfl⟩
  · intro heq
    rcases find_lane_path_cases start endI lanes hpos with ⟨route, heq2, _⟩ | ⟨_, hno⟩
    · rw [heq2] at heq
      simp at heq
    · exact hno
  · intro hno
    rcases find_lane_path_cases start endI lanes hpos with ⟨route, _, hroute⟩ | ⟨heq2, _⟩
    · exact absurd ⟨route, hroute⟩ hno
    · exact heq2

/-- Witness for C7 on the one-lane table, in the unreachable direction 2 → 1. -/
theorem c7_none_iff_no_path_witness :
    (∀ l ∈ ([⟨10, 1, 2, 5, .Internal⟩] : List Lane), 0 < l.lane_length) ∧
    ((find_lane_path 2 1 [⟨10, 1, 2, 5, .Internal⟩] = some none ↔
      ¬ ∃ r, Chain [⟨10, 1, 2, 5, .Internal⟩] 2 1 r) ∧
    car_route none = []) := by
  have hpos : ∀ l ∈ ([⟨10, 1, 2, 5, .Internal⟩] : List Lane), 0 < l.lane_length := by
    intro l hl
    rw [List.mem_singleton] at hl
    subst hl
    norm_num
  exact ⟨hpos, c7_none_iff_no_path 2 1 [⟨10, 1, 2, 5, .Internal⟩] hpos⟩
